import Mathlib

/-!
Verification of the supervision and dependency-scheduling core of
`src/app/project.go` (process-compose).  Go maps are embedded as association
lists whose list order stands for the (unspecified) map iteration order; the
recursive dependency walk is embedded with an explicit fuel parameter, and a
distinguished `outOfFuel` outcome marks fuel exhaustion, so that termination
of the Go recursion is the statement that enough fuel never exhausts.
-/

namespace ProcessCompose

/-- Dependency conditions of `depends_on` entries: `process_completed` and
`process_completed_successfully` (the two cases of the `switch` at
`project.go:70-80`). -/
inductive DependencyCondition where
  | processCompleted
  | processCompletedSuccessfully
deriving DecidableEq, Repr

/-- The fields of `ProcessConfig` consulted by the supervisor and the walker in
`project.go`.  `dependsOn` embeds the Go map `DependsOn` (dep name → condition)
as an association list in iteration order. -/
structure ProcessConfig where
  name : String
  command : String
  logLocation : String
  disabled : Bool
  dependsOn : List (String × DependencyCondition)
deriving DecidableEq, Repr

/-- The field assignment `proc.Name = name` performed by `getProcesses`
(`project.go:163,173`) and `StartProcess` (`project.go:137`). -/
def ProcessConfig.setName (c : ProcessConfig) (n : String) : ProcessConfig :=
  ⟨n, c.command, c.logLocation, c.disabled, c.dependsOn⟩

/-- Modelled from the spec: `ProcessConfig.GetDependencies` is declared outside
the provided source file (`project.go` only calls it at line 201).  Per the
spec the walker traverses the `DependsOn` relation, so it returns the
dependency names — the keys of the `DependsOn` mapping, in iteration order. -/
def ProcessConfig.GetDependencies (c : ProcessConfig) : List String :=
  c.dependsOn.map Prod.fst

/-- A project: the `Processes` map (name → `ProcessConfig`), embedded as an
association list in iteration order.  Go map keys are unique. -/
structure Project where
  processes : List (String × ProcessConfig)
deriving DecidableEq, Repr

/-- Go map indexing `p.Processes[name]`. -/
def Project.lookup (p : Project) (name : String) : Option ProcessConfig :=
  (p.processes.find? (fun kv => kv.fst == name)).map Prod.snd

/-- The declared process names. -/
def Project.keys (p : Project) : List String :=
  p.processes.map Prod.fst

/-- Dependency names declared by the process registered under `n` (empty when
`n` is not declared). -/
def depNamesOf (p : Project) (n : String) : List String :=
  match p.lookup n with
  | some c => c.GetDependencies
  | none => []

/-- Whether `n` is a declared, non-disabled process name. -/
def goodB (p : Project) (n : String) : Bool :=
  match p.lookup n with
  | some c => !c.disabled
  | none => false

/-- The config the walker hands to its visitor for name `n`: the declared
config with its `Name` field set to the map key. -/
def confOf (p : Project) (n : String) : Option ProcessConfig :=
  (p.lookup n).map (fun c => c.setName n)

/-- The starting set of the walk: the given names, or every declared name when
the list is empty (`getProcesses`, `project.go:158-167`). -/
def startNames (p : Project) (names : List String) : List String :=
  if names.isEmpty then p.keys else names

/-- Modelled from the spec: the `Process` handle is implemented outside the
provided source file.  `waitIfNeeded` consults it only through
`WaitForCompletion`, which blocks until the handle's terminal state and then
returns its final exit code; the handle is therefore embedded as its name
together with that final exit code. -/
structure Process where
  name : String
  exitCode : Int
deriving DecidableEq, Repr

/-- The running registry `p.runningProcesses` (Go map name → `*Process`). -/
abbrev RunningProcesses := List (String × Process)

/-- Function `getRunningProcess` (`project.go:115-122`): mutex-guarded map
lookup returning `nil` (here `none`) when the name is absent. -/
def getRunningProcess (reg : RunningProcesses) (name : String) : Option Process :=
  (reg.find? (fun kv => kv.fst == name)).map Prod.snd

/-- Function `removeRunningProcess` (`project.go:124-128`): mutex-guarded
`delete` of the registry entry. -/
def removeRunningProcess (reg : RunningProcesses) (name : String) : RunningProcesses :=
  reg.filter (fun kv => !(kv.fst == name))

/-- The error built at `project.go:77-78`: process `procName` depended on
`depName` to complete successfully, but it exited with status `exitCode`. -/
structure UnmetDependency where
  procName : String
  depName : String
  exitCode : Int
deriving DecidableEq, Repr

/-- The loop of `waitIfNeeded` (`project.go:67-82`) over the `DependsOn`
entries: absent dependencies are skipped; a live `processCompleted` dependency
is awaited with its exit code ignored; a live `processCompletedSuccessfully`
dependency that exits non-zero aborts with the `UnmetDependency` error. -/
def waitLoop (reg : RunningProcesses) (procName : String) :
    List (String × DependencyCondition) → Option UnmetDependency
  | [] => none
  | (k, cond) :: rest =>
    match getRunningProcess reg k with
    | none => waitLoop reg procName rest
    | some runningProc =>
      match cond with
      | .processCompleted => waitLoop reg procName rest
      | .processCompletedSuccessfully =>
        if runningProc.exitCode ≠ 0 then some ⟨procName, k, runningProc.exitCode⟩
        else waitLoop reg procName rest

/-- Function `waitIfNeeded` (`project.go:66-84`); `none` means no error. -/
def waitIfNeeded (reg : RunningProcesses) (process : ProcessConfig) : Option UnmetDependency :=
  waitLoop reg process.name process.dependsOn

/-- Which of the two handle calls a spawned task performs. -/
inductive TaskOutcome where
  | run
  | wontRun
deriving DecidableEq, Repr

/-- The body of the task spawned by `runProcess` (`project.go:53-63`): if
`waitIfNeeded` returns an error the task calls `WontRun()`, otherwise it calls
`Run()`. -/
def runProcessTask (reg : RunningProcesses) (process : ProcessConfig) : TaskOutcome :=
  match waitIfNeeded reg process with
  | some _ => .wontRun
  | none => .run

/-- The control-API errors of `StartProcess` / `StopProcess`
(`project.go:134,140,150`). -/
inductive ControlError where
  | alreadyRunning (name : String)
  | noSuchProcessErr (name : String)
  | notRunning (name : String)
deriving DecidableEq, Repr

/-- The task spawned by `runProcess` (`project.go:50`): `NewProcess` receives
the config and the attempt counter, which is the literal `1`. -/
structure SpawnedTask where
  config : ProcessConfig
  attempt : Nat
deriving DecidableEq, Repr

/-- Function `StartProcess` (`project.go:130-144`): an already-running name is
refused; a declared name is spawned through `runProcess` with its `Name` field
set and attempt counter 1; an undeclared name yields the no-such-process
error. -/
def StartProcess (p : Project) (reg : RunningProcesses) (name : String) :
    Except ControlError SpawnedTask :=
  match getRunningProcess reg name with
  | some _ => .error (.alreadyRunning name)
  | none =>
    match p.lookup name with
    | some proc => .ok ⟨proc.setName name, 1⟩
    | none => .error (.noSuchProcessErr name)

/-- Function `StopProcess` (`project.go:146-154`): a name absent from the
running registry yields the not-running error and no stop action; otherwise
`stop()` is invoked on the returned handle. -/
def StopProcess (reg : RunningProcesses) (name : String) : Except ControlError Process :=
  match getRunningProcess reg name with
  | none => .error (.notRunning name)
  | some proc => .ok proc

/-- Errors of the dependency walk.  `noSuchProcess` is the error built at
`project.go:176`; `outOfFuel` is the artifact of the fuel embedding and never
occurs with sufficient fuel. -/
inductive WalkErr where
  | noSuchProcess (name : String)
  | outOfFuel
deriving DecidableEq, Repr

/-- Result of a walk: the visitor-call sequence (every config passed to `fn`
before the walk finished or aborted), the final `done` set, and the error, if
any.  The visitors used in `project.go` (`Run`, `GetDependenciesOrderNames`)
only append and never fail, so `fn` is embedded as this accumulation. -/
structure WalkRes where
  visited : List ProcessConfig
  done : List String
  err : Option WalkErr
deriving DecidableEq, Repr

/-- The named branch of `getProcesses` (`project.go:168-178`): look each name
up, skip disabled ones, set the `Name` field, and abort with the
no-such-process error at the first missing name (the configs accumulated
before the error are still returned, as in the Go code). -/
def getProcessesNamed (p : Project) : List String → List ProcessConfig × Option WalkErr
  | [] => ([], none)
  | n :: rest =>
    match p.lookup n with
    | none => ([], some (.noSuchProcess n))
    | some proc =>
      let tail := getProcessesNamed p rest
      (if proc.disabled then tail.fst else proc.setName n :: tail.fst, tail.snd)

/-- Function `getProcesses` (`project.go:156-181`): with no names, every
non-disabled declared process in iteration order; otherwise the named
branch. -/
def getProcesses (p : Project) (names : List String) : List ProcessConfig × Option WalkErr :=
  if names.isEmpty then
    (p.processes.filterMap (fun kv => if kv.snd.disabled then none else some (kv.snd.setName kv.fst)), none)
  else
    getProcessesNamed p names

/-- The `for` loop of `withProcesses` (`project.go:195-211`) with the recursive
call abstracted as `rec`: an already-done process is skipped; otherwise it is
marked done, its dependencies (when non-empty) are walked first, and then the
process itself is visited.  An error from the dependency walk aborts before
the visit; an error from a later iteration aborts after it. -/
def withProcessesLoop (rec : List String → List String → WalkRes) :
    List ProcessConfig → List String → WalkRes
  | [], done => ⟨[], done, none⟩
  | proc :: rest, done =>
    if proc.name ∈ done then withProcessesLoop rec rest done
    else
      let sub :=
        if proc.GetDependencies.isEmpty then (⟨[], proc.name :: done, none⟩ : WalkRes)
        else rec proc.GetDependencies (proc.name :: done)
      match sub.err with
      | some e => ⟨sub.visited, sub.done, some e⟩
      | none =>
        let tail := withProcessesLoop rec rest sub.done
        ⟨sub.visited ++ proc :: tail.visited, tail.done, tail.err⟩

/-- Function `withProcesses` (`project.go:190-213`) with fuel: resolve the
names through `getProcesses`, abort on its error, and run the loop; the
recursive call uses one unit of fuel. -/
def withProcessesAux (p : Project) : Nat → List String → List String → WalkRes
  | 0, _, done => ⟨[], done, some .outOfFuel⟩
  | fuel + 1, names, done =>
    match getProcesses p names with
    | (_, some e) => ⟨[], done, some e⟩
    | (procs, none) => withProcessesLoop (withProcessesAux p fuel) procs done

/-- Function `WithProcesses` (`project.go:186-188`): the walk starts with an
empty `done` set. -/
def WithProcesses (p : Project) (names : List String) (fuel : Nat) : WalkRes :=
  withProcessesAux p fuel names []

/-- Function `GetDependenciesOrderNames` (`project.go:215-223`): the visitor
collects names; the names appended before any error are returned with it. -/
def GetDependenciesOrderNames (p : Project) (fuel : Nat) : List String × Option WalkErr :=
  ((WithProcesses p [] fuel).visited.map ProcessConfig.name, (WithProcesses p [] fuel).err)

/-- The run order built by `Project.Run` (`project.go:24-28`): `Run` discards
the return value of `WithProcesses` and launches exactly the configs its
visitor appended; it then waits (via the wait-group incremented once per
launched task) for those tasks only. -/
def RunOrder (p : Project) (fuel : Nat) : List ProcessConfig :=
  (WithProcesses p [] fuel).visited

/-- Variable `DefaultFileNames` (`project.go:281`). -/
def DefaultFileNames : List String :=
  ["compose.yml", "compose.yaml", "process-compose.yml", "process-compose.yaml"]

/-- Path joining `filepath.Join(pwd, name)`, embedded as separator
concatenation. -/
def filepathJoin (pwd name : String) : String := pwd ++ "/" ++ name

/-- Function `findFiles` (`project.go:269-278`): the joined paths whose
`os.Stat` succeeds, in the order of `names`.  The filesystem is embedded as
the predicate `stat` on full paths. -/
def findFiles (stat : String → Bool) (names : List String) (pwd : String) : List String :=
  names.filterMap (fun n => if stat (filepathJoin pwd n) then some (filepathJoin pwd n) else none)

/-- Observable outcome of `AutoDiscoverComposeFile`: the returned file name
(`""` with an error when nothing was found), the error, and the candidate list
named by the warning when more than one candidate exists. -/
structure DiscoverResult where
  file : String
  err : Option String
  warned : Option (List String)
deriving DecidableEq, Repr

/-- Function `AutoDiscoverComposeFile` (`project.go:283-294`): the first
existing candidate wins; with more than one candidate a warning names them
all; with none, the error is returned together with the empty file name. -/
def AutoDiscoverComposeFile (stat : String → Bool) (pwd : String) : DiscoverResult :=
  match findFiles stat DefaultFileNames pwd with
  | [] => ⟨"", some ("no config files found in " ++ pwd), none⟩
  | winner :: rest =>
    ⟨winner, none, if rest.isEmpty then none else some (winner :: rest)⟩

/-! ### Concrete projects used as witnesses and counterexamples -/

/-- A config with no dependencies. -/
def cfgA : ProcessConfig := ⟨"", "echo a", "", false, []⟩

/-- A config depending on `a` (completed successfully). -/
def cfgB : ProcessConfig := ⟨"", "echo b", "", false, [("a", .processCompletedSuccessfully)]⟩

/-- A config depending on `a` and `b`. -/
def cfgC : ProcessConfig :=
  ⟨"", "echo c", "", false, [("a", .processCompletedSuccessfully), ("b", .processCompleted)]⟩

/-- A three-process acyclic project: `b` depends on `a`, `c` on `a` and `b`. -/
def Pw : Project := ⟨[("a", cfgA), ("b", cfgB), ("c", cfgC)]⟩

/-- Config of `a` in the cyclic project: depends on `b`. -/
def cfgCycA : ProcessConfig := ⟨"", "cmd a", "", false, [("b", .processCompleted)]⟩

/-- Config of `b` in the cyclic project: depends on `a`. -/
def cfgCycB : ProcessConfig := ⟨"", "cmd b", "", false, [("a", .processCompleted)]⟩

/-- A project whose `DependsOn` relation is a two-cycle between declared,
non-disabled processes. -/
def Pcyc : Project := ⟨[("a", cfgCycA), ("b", cfgCycB)]⟩

/-- A config with no dependencies. -/
def cfgBadA : ProcessConfig := ⟨"", "cmd a", "", false, []⟩

/-- A config depending on the undeclared name `missing`. -/
def cfgBadB : ProcessConfig := ⟨"", "cmd b", "", false, [("missing", .processCompleted)]⟩

/-- A project in which declared process `b` depends on an undeclared name. -/
def Pbad : Project := ⟨[("a", cfgBadA), ("b", cfgBadB)]⟩

/-- A dependency-free config. -/
def cfgPa : ProcessConfig := ⟨"", "cmd pa", "", false, []⟩

/-- A dependency-free config. -/
def cfgPb : ProcessConfig := ⟨"", "cmd pb", "", false, []⟩

/-- Two dependency-free processes, iteration order `a` then `b`. -/
def Pperm1 : Project := ⟨[("a", cfgPa), ("b", cfgPb)]⟩

/-- The same map contents as `Pperm1`, iteration order `b` then `a`. -/
def Pperm2 : Project := ⟨[("b", cfgPb), ("a", cfgPa)]⟩

/-! ### The dependency wait and the task body (claims C1, C7) -/

/-- The wait loop errors exactly when some dependency entry has the
completed-successfully condition, is live in the registry, and its awaited
exit code is non-zero. -/
theorem waitLoop_some_iff (reg : RunningProcesses) (pn : String)
    (l : List (String × DependencyCondition)) :
    (waitLoop reg pn l).isSome = true ↔
      ∃ k q, (k, DependencyCondition.processCompletedSuccessfully) ∈ l ∧
        getRunningProcess reg k = some q ∧ q.exitCode ≠ 0 := by
  induction l with
  | nil => simp [waitLoop]
  | cons kc rest ih =>
    obtain ⟨k, cond⟩ := kc
    cases hreg : getRunningProcess reg k with
    | none =>
      simp only [waitLoop, hreg]
      rw [ih]
      constructor
      · rintro ⟨k', q, hm, hq, hne⟩
        exact ⟨k', q, List.mem_cons_of_mem _ hm, hq, hne⟩
      · rintro ⟨k', q, hm, hq, hne⟩
        rcases List.mem_cons.mp hm with heq | hm'
        · injection heq with hk hc
          subst hk
          rw [hreg] at hq
          cases hq
        · exact ⟨k', q, hm', hq, hne⟩
    | some rp =>
      cases cond with
      | processCompleted =>
        simp only [waitLoop, hreg]
        rw [ih]
        constructor
        · rintro ⟨k', q, hm, hq, hne⟩
          exact ⟨k', q, List.mem_cons_of_mem _ hm, hq, hne⟩
        · rintro ⟨k', q, hm, hq, hne⟩
          rcases List.mem_cons.mp hm with heq | hm'
          · injection heq with hk hc
            cases hc
          · exact ⟨k', q, hm', hq, hne⟩
      | processCompletedSuccessfully =>
        by_cases hz : rp.exitCode = 0
        · simp only [waitLoop, hreg, hz]
          rw [if_neg (by simp), ih]
          constructor
          · rintro ⟨k', q, hm, hq, hne⟩
            exact ⟨k', q, List.mem_cons_of_mem _ hm, hq, hne⟩
          · rintro ⟨k', q, hm, hq, hne⟩
            rcases List.mem_cons.mp hm with heq | hm'
            · injection heq with hk hc
              subst hk
              rw [hreg] at hq
              injection hq with hq'
              subst hq'
              exact absurd hz hne
            · exact ⟨k', q, hm', hq, hne⟩
        · simp only [waitLoop, hreg]
          rw [if_pos hz]
          simp only [Option.isSome_some, true_iff]
          exact ⟨k, rp, List.mem_cons_self _ _, hreg, hz⟩

/-- Claim C1: the task body spawned by `runProcess` calls `WontRun()` exactly
when some dependency with condition completed-successfully is live in the
running registry and its awaited exit code is non-zero; otherwise it calls
`Run()`.  The outcome is a single value, so exactly one of the two handle
calls happens per task. -/
theorem runProcess_outcome (reg : RunningProcesses) (process : ProcessConfig) :
    (runProcessTask reg process = .wontRun ↔
      ∃ k q, (k, DependencyCondition.processCompletedSuccessfully) ∈ process.dependsOn ∧
        getRunningProcess reg k = some q ∧ q.exitCode ≠ 0) ∧
    (runProcessTask reg process = .run ↔ ¬ runProcessTask reg process = .wontRun) := by
  constructor
  · rw [← waitLoop_some_iff reg process.name process.dependsOn]
    cases h : waitLoop reg process.name process.dependsOn with
    | none => simp [runProcessTask, waitIfNeeded, h]
    | some u => simp [runProcessTask, waitIfNeeded, h]
  · cases h : runProcessTask reg process <;> simp [h]

/-- Witness for C1: `b` depends on `a` (completed successfully); `a` is live
with exit code 3, so the task calls `WontRun()`. -/
theorem runProcess_outcome_witness :
    runProcessTask [("a", (⟨"a", 3⟩ : Process))] (cfgB.setName "b") = TaskOutcome.wontRun :=
  (runProcess_outcome [("a", ⟨"a", 3⟩)] (cfgB.setName "b")).1.mpr
    ⟨"a", ⟨"a", 3⟩, by decide, by decide, by decide⟩

/-- The wait loop returns no error when every dependency is absent from the
registry. -/
theorem waitLoop_none_of_absent (reg : RunningProcesses) (pn : String)
    (l : List (String × DependencyCondition))
    (h : ∀ kc ∈ l, getRunningProcess reg kc.fst = none) :
    waitLoop reg pn l = none := by
  induction l with
  | nil => rfl
  | cons kc rest ih =>
    obtain ⟨k, cond⟩ := kc
    have hk : getRunningProcess reg k = none := h (k, cond) (List.mem_cons_self _ _)
    simp only [waitLoop, hk]
    exact ih (fun kc hm => h kc (List.mem_cons_of_mem _ hm))

/-- Claim C7: a process all of whose declared dependencies are absent from the
running registry passes the dependency wait with no error and runs normally,
regardless of the dependency conditions. -/
theorem waitIfNeeded_absent (reg : RunningProcesses) (process : ProcessConfig)
    (h : ∀ kc ∈ process.dependsOn, getRunningProcess reg kc.fst = none) :
    waitIfNeeded reg process = none ∧ runProcessTask reg process = .run := by
  have h1 : waitIfNeeded reg process = none :=
    waitLoop_none_of_absent reg process.name process.dependsOn h
  exact ⟨h1, by simp [runProcessTask, h1]⟩

/-- A config whose two dependencies are not in the registry. -/
def cfgSoft : ProcessConfig :=
  ⟨"a", "cmd soft", "", false,
    [("ghost", .processCompletedSuccessfully), ("sibling", .processCompleted)]⟩

/-- Witness for C7: with only an unrelated process live, both absent
dependencies are silently skipped and the process runs. -/
theorem waitIfNeeded_absent_witness :
    waitIfNeeded [("other", (⟨"other", 7⟩ : Process))] cfgSoft = none ∧
    runProcessTask [("other", (⟨"other", 7⟩ : Process))] cfgSoft = .run :=
  waitIfNeeded_absent [("other", ⟨"other", 7⟩)] cfgSoft (by decide)

/-! ### The control API (claims C5, C6) -/

/-- Claim C5: `StartProcess` returns the already-running error exactly when the
name is live in the registry; otherwise a declared name is spawned as one task
with attempt counter 1 and the key written into the config's `Name`, and an
undeclared name yields the no-such-process error with nothing spawned. -/
theorem startProcess_spec (p : Project) (reg : RunningProcesses) (name : String) :
    (StartProcess p reg name = .error (.alreadyRunning name) ↔
      (getRunningProcess reg name).isSome = true) ∧
    (∀ proc, getRunningProcess reg name = none → p.lookup name = some proc →
      StartProcess p reg name = .ok ⟨proc.setName name, 1⟩) ∧
    (getRunningProcess reg name = none → p.lookup name = none →
      StartProcess p reg name = .error (.noSuchProcessErr name)) := by
  refine ⟨?_, ?_, ?_⟩
  · cases h : getRunningProcess reg name with
    | none =>
      cases h2 : p.lookup name with
      | none => simp [StartProcess, h, h2]
      | some c => simp [StartProcess, h, h2]
    | some q => simp [StartProcess, h]
  · intro proc h1 h2
    simp [StartProcess, h1, h2]
  · intro h1 h2
    simp [StartProcess, h1, h2]

/-- Witness for C5: starting the declared, not-running process `a` spawns it
with attempt counter 1. -/
theorem startProcess_spec_witness :
    StartProcess Pw [] "a" = .ok ⟨cfgA.setName "a", 1⟩ :=
  (startProcess_spec Pw [] "a").2.1 cfgA rfl rfl

/-- After `removeRunningProcess`, the removed name is absent from the
registry. -/
theorem getRunningProcess_remove (reg : RunningProcesses) (name : String) :
    getRunningProcess (removeRunningProcess reg name) name = none := by
  have hnone : (removeRunningProcess reg name).find? (fun kv => kv.fst == name) = none := by
    apply List.find?_eq_none.mpr
    intro kv hkv
    have h2 := (List.mem_filter.mp hkv).2
    simp only [Bool.not_eq_true'] at h2
    simp [h2]
  simp [getRunningProcess, hnone]

/-- Claim C6: `StopProcess` returns the not-running error exactly when the name
is absent from the running registry, performing no stop action; a live name has
its handle stopped and ok returned; and after the exit-path removal of the
entry, a further call yields not-running. -/
theorem stopProcess_spec (reg : RunningProcesses) (name : String) :
    (StopProcess reg name = .error (.notRunning name) ↔ getRunningProcess reg name = none) ∧
    (∀ q, getRunningProcess reg name = some q → StopProcess reg name = .ok q) ∧
    StopProcess (removeRunningProcess reg name) name = .error (.notRunning name) := by
  refine ⟨?_, ?_, ?_⟩
  · cases h : getRunningProcess reg name with
    | none => simp [StopProcess, h]
    | some q => simp [StopProcess, h]
  · intro q hq
    simp [StopProcess, hq]
  · simp [StopProcess, getRunningProcess_remove]

/-- Witness for C6: stopping the live process `srv` succeeds; stopping it again
after its registry entry was removed yields the not-running error. -/
theorem stopProcess_spec_witness :
    StopProcess [("srv", (⟨"srv", 0⟩ : Process))] "srv" = .ok ⟨"srv", 0⟩ ∧
    StopProcess (removeRunningProcess [("srv", (⟨"srv", 0⟩ : Process))] "srv") "srv" =
      .error (.notRunning "srv") :=
  ⟨(stopProcess_spec [("srv", ⟨"srv", 0⟩)] "srv").2.1 ⟨"srv", 0⟩ rfl,
   (stopProcess_spec [("srv", ⟨"srv", 0⟩)] "srv").2.2⟩

/-! ### Compose-file auto-discovery (claim C9) -/

/-- The head of `findFiles` is the join of the first name whose stat
succeeds. -/
theorem findFiles_head? (stat : String → Bool) (pwd : String) (names : List String) :
    (findFiles stat names pwd).head? =
      (names.find? (fun m => stat (filepathJoin pwd m))).map (filepathJoin pwd) := by
  induction names with
  | nil => rfl
  | cons n rest ih =>
    by_cases h : stat (filepathJoin pwd n) = true
    · simp [findFiles, List.filterMap_cons, h, List.find?_cons_of_pos]
    · have hb : stat (filepathJoin pwd n) = false := by
        cases hsn : stat (filepathJoin pwd n) with
        | false => rfl
        | true => exact absurd hsn h
      simp only [findFiles, List.filterMap_cons, hb, Bool.false_eq_true, if_false]
      rw [List.find?_cons_of_neg _ (by simp [hb])]
      exact ih

/-- Claim C9: `AutoDiscoverComposeFile` returns the first existing candidate
among the default file names in preference order with no error; it warns with
the full candidate list exactly when at least two candidates exist; and when no
candidate exists it returns the empty file name together with an error. -/
theorem autoDiscover_spec (stat : String → Bool) (pwd : String) :
    (∀ n, DefaultFileNames.find? (fun m => stat (filepathJoin pwd m)) = some n →
      (AutoDiscoverComposeFile stat pwd).file = filepathJoin pwd n ∧
      (AutoDiscoverComposeFile stat pwd).err = none) ∧
    ((AutoDiscoverComposeFile stat pwd).warned =
      if 2 ≤ (findFiles stat DefaultFileNames pwd).length
      then some (findFiles stat DefaultFileNames pwd) else none) ∧
    (DefaultFileNames.find? (fun m => stat (filepathJoin pwd m)) = none →
      (AutoDiscoverComposeFile stat pwd).file = "" ∧
      (AutoDiscoverComposeFile stat pwd).err ≠ none) := by
  have hh := findFiles_head? stat pwd DefaultFileNames
  cases hc : findFiles stat DefaultFileNames pwd with
  | nil =>
    rw [hc] at hh
    refine ⟨?_, ?_, ?_⟩
    · intro n hn
      rw [hn] at hh
      cases hh
    · simp [AutoDiscoverComposeFile, hc]
    · intro _
      simp [AutoDiscoverComposeFile, hc]
  | cons winner rest =>
    rw [hc] at hh
    refine ⟨?_, ?_, ?_⟩
    · intro n hn
      rw [hn] at hh
      simp only [List.head?_cons, Option.map_some'] at hh
      injection hh with hw
      simp [AutoDiscoverComposeFile, hc, hw]
    · cases rest with
      | nil => simp [AutoDiscoverComposeFile, hc]
      | cons r rs =>
        simp only [AutoDiscoverComposeFile, hc, List.isEmpty_cons, List.length_cons]
        rw [if_neg (by simp), if_pos (by omega)]
    · intro hn
      rw [hn] at hh
      cases hh

/-- The filesystem of scenario S6: `compose.yaml` and `process-compose.yml`
exist in directory `wd`. -/
def statW : String → Bool :=
  fun s => s == "wd/compose.yaml" || s == "wd/process-compose.yml"

/-- Witness for C9: with two candidates present, the first in preference order
wins and the warning names both. -/
theorem autoDiscover_spec_witness :
    (AutoDiscoverComposeFile statW "wd").file = "wd/compose.yaml" ∧
    (AutoDiscoverComposeFile statW "wd").err = none ∧
    (AutoDiscoverComposeFile statW "wd").warned =
      some ["wd/compose.yaml", "wd/process-compose.yml"] := by
  have h := autoDiscover_spec statW "wd"
  have h1 := h.1 "compose.yaml" (by decide)
  refine ⟨h1.1, h1.2, ?_⟩
  rw [h.2.1]
  decide

/-! ### Determinism of the walker (claim C8) -/

/-- Counterexample for C8: two association lists presenting the same process
map (a permutation, i.e. equal Go map contents) but different iteration orders
make the walk produce different output sequences for the empty starting
list. -/
theorem walker_order_counterexample :
    Pperm1.processes.Perm Pperm2.processes ∧
    (WithProcesses Pperm1 [] 3).visited.map ProcessConfig.name = ["a", "b"] ∧
    (WithProcesses Pperm2 [] 3).visited.map ProcessConfig.name = ["b", "a"] ∧
    (["a", "b"] : List String) ≠ ["b", "a"] := by
  refine ⟨?_, by decide, by decide, by decide⟩
  exact List.Perm.swap ("b", cfgPb) ("a", cfgPa) []

/-- Claim C8 (amended): the walk is a pure function of the project presentation
and the starting list — two runs over identical presentations (same map
iteration orders) produce identical results; equal map contents alone (a
permutation of the association list) do not guarantee the same sequence, since
Go leaves map iteration order unspecified. -/
theorem walker_deterministic (p q : Project) (names : List String) (fuel : Nat)
    (h : p.processes = q.processes) :
    WithProcesses p names fuel = WithProcesses q names fuel := by
  have hp : p = q := by
    cases p
    cases q
    simpa using h
  rw [hp]

/-- Witness for C8's amended claim at a concrete presentation. -/
theorem walker_deterministic_witness :
    WithProcesses Pperm1 [] 3 = WithProcesses Pperm1 [] 3 :=
  walker_deterministic Pperm1 Pperm1 [] 3 rfl

/-! ### Run discards the walk error (claim C10) -/

/-- Claim C10: `Run` launches exactly the configs the walk appended before
aborting and ignores the walk's error: on the project where declared process
`b` depends on the undeclared `missing`, the walk errors, yet the run order
silently contains only `a` — the declared process `b` is not launched. -/
theorem run_discards_walk_error :
    (∀ p fuel, RunOrder p fuel = (WithProcesses p [] fuel).visited) ∧
    (WithProcesses Pbad [] 4).err = some (.noSuchProcess "missing") ∧
    RunOrder Pbad 4 = [cfgBadA.setName "a"] ∧
    ("b" ∈ Pbad.keys ∧ ∀ q ∈ RunOrder Pbad 4, q.name ≠ "b") :=
  ⟨fun _ _ => rfl, by decide, by decide, by decide⟩

/-! ### Basic facts about map lookup and `getProcesses` -/

/-- Setting the name leaves the dependency list unchanged. -/
theorem setName_deps (c : ProcessConfig) (n : String) :
    (c.setName n).GetDependencies = c.GetDependencies := rfl

/-- Setting the name writes the name field. -/
theorem setName_name (c : ProcessConfig) (n : String) : (c.setName n).name = n := rfl

/-- A successful lookup comes from a map entry. -/
theorem lookup_mem {p : Project} {n : String} {c : ProcessConfig}
    (h : p.lookup n = some c) : (n, c) ∈ p.processes := by
  unfold Project.lookup at h
  cases hf : p.processes.find? (fun kv => kv.fst == n) with
  | none => rw [hf] at h; cases h
  | some kv =>
    rw [hf] at h
    injection h with h2
    have hkv := List.mem_of_find?_eq_some hf
    obtain ⟨a, b⟩ := kv
    simp only at h2
    have hp : a = n := by simpa using List.find?_some hf
    subst hp
    subst h2
    exact hkv

/-- A successful lookup means the name is declared. -/
theorem lookup_keys {p : Project} {n : String} {c : ProcessConfig}
    (h : p.lookup n = some c) : n ∈ p.keys :=
  List.mem_map.mpr ⟨(n, c), lookup_mem h, rfl⟩

/-- A declared name has a config. -/
theorem keys_lookup {p : Project} {n : String} (h : n ∈ p.keys) :
    ∃ c, p.lookup n = some c := by
  obtain ⟨kv, hkv, hfst⟩ := List.mem_map.mp h
  have hs : (p.processes.find? (fun kv => kv.fst == n)).isSome = true :=
    List.find?_isSome.mpr ⟨kv, hkv, by simp [hfst]⟩
  obtain ⟨kv', hkv'⟩ := Option.isSome_iff_exists.mp hs
  exact ⟨kv'.snd, by simp [Project.lookup, hkv']⟩

/-- With unique keys, `find?` on the association list retrieves exactly the
member entry. -/
theorem find?_assoc_of_nodup {l : List (String × ProcessConfig)}
    (hnd : (l.map Prod.fst).Nodup) {n : String} {c : ProcessConfig}
    (h : (n, c) ∈ l) : l.find? (fun kv => kv.fst == n) = some (n, c) := by
  induction l with
  | nil => cases h
  | cons kv rest ih =>
    obtain ⟨a, b⟩ := kv
    have hnd2 : a ∉ rest.map Prod.fst ∧ (rest.map Prod.fst).Nodup := by
      rw [List.map_cons, List.nodup_cons] at hnd
      exact hnd
    rcases List.mem_cons.mp h with heq | hm
    · injection heq with h1 h2
      subst h1
      subst h2
      rw [List.find?_cons_of_pos _ (by simp)]
    · by_cases hab : a = n
      · subst hab
        exact absurd (List.mem_map.mpr ⟨(a, c), hm, rfl⟩) hnd2.1
      · rw [List.find?_cons_of_neg _ (by simp [hab])]
        exact ih hnd2.2 hm

/-- With unique keys, membership determines the lookup. -/
theorem lookup_of_nodup {p : Project} (hnd : p.keys.Nodup) {n : String}
    {c : ProcessConfig} (h : (n, c) ∈ p.processes) : p.lookup n = some c := by
  have hnd' : (p.processes.map Prod.fst).Nodup := hnd
  unfold Project.lookup
  rw [find?_assoc_of_nodup hnd' h]
  rfl

/-- Unfolding equation of `getProcesses` at the empty name list. -/
theorem getProcesses_nil (p : Project) :
    getProcesses p [] =
      (p.processes.filterMap
        (fun kv => if kv.snd.disabled then none else some (kv.snd.setName kv.fst)), none) := rfl

/-- Unfolding equation of `getProcesses` at a non-empty name list. -/
theorem getProcesses_cons (p : Project) (n : String) (rest : List String) :
    getProcesses p (n :: rest) = getProcessesNamed p (n :: rest) := rfl

/-- Every config produced by the named branch comes from a successful lookup of
one of the names, is not disabled, and has its name field set to that name. -/
theorem getProcessesNamed_mem {p : Project} {names : List String} {q : ProcessConfig}
    (hq : q ∈ (getProcessesNamed p names).fst) :
    ∃ n c, n ∈ names ∧ p.lookup n = some c ∧ c.disabled = false ∧ q = c.setName n := by
  induction names with
  | nil => cases hq
  | cons n rest ih =>
    cases hl : p.lookup n with
    | none => simp only [getProcessesNamed, hl] at hq; cases hq
    | some proc =>
      simp only [getProcessesNamed, hl] at hq
      by_cases hd : proc.disabled = true
      · rw [if_pos hd] at hq
        obtain ⟨n', c, hn', hc, hcd, hqe⟩ := ih hq
        exact ⟨n', c, List.mem_cons_of_mem _ hn', hc, hcd, hqe⟩
      · rw [if_neg hd] at hq
        rcases List.mem_cons.mp hq with heq | hm
        · exact ⟨n, proc, List.mem_cons_self _ _, hl, by simpa using hd, heq⟩
        · obtain ⟨n', c, hn', hc, hcd, hqe⟩ := ih hm
          exact ⟨n', c, List.mem_cons_of_mem _ hn', hc, hcd, hqe⟩

/-- Every config produced by the all-processes branch comes from a map entry,
is not disabled, and has its name field set to the entry's key. -/
theorem getProcessesAll_mem {p : Project} {q : ProcessConfig}
    (hq : q ∈ (getProcesses p []).fst) :
    ∃ k c, (k, c) ∈ p.processes ∧ c.disabled = false ∧ q = c.setName k := by
  rw [getProcesses_nil] at hq
  obtain ⟨kv, hkv, hf⟩ := List.mem_filterMap.mp hq
  obtain ⟨k, c⟩ := kv
  simp only at hf
  by_cases hd : c.disabled = true
  · rw [if_pos hd] at hf; cases hf
  · rw [if_neg hd] at hf
    injection hf with hf'
    exact ⟨k, c, hkv, by simpa using hd, hf'.symm⟩

/-- Names of configs produced by `getProcesses` are declared. -/
theorem getProcesses_name_keys {p : Project} {names : List String} {q : ProcessConfig}
    (hq : q ∈ (getProcesses p names).fst) : q.name ∈ p.keys := by
  cases names with
  | nil =>
    obtain ⟨k, c, hkc, _, hqe⟩ := getProcessesAll_mem hq
    subst hqe
    exact List.mem_map.mpr ⟨(k, c), hkc, rfl⟩
  | cons n rest =>
    rw [getProcesses_cons] at hq
    obtain ⟨n', c, _, hc, _, hqe⟩ := getProcessesNamed_mem hq
    subst hqe
    exact lookup_keys hc

/-- With unique keys, every config produced by `getProcesses` is the declared
config of its own name (with the name field set) and is good. -/
theorem getProcesses_mem_conf {p : Project} (hnd : p.keys.Nodup) {names : List String}
    {q : ProcessConfig} (hq : q ∈ (getProcesses p names).fst) :
    confOf p q.name = some q ∧ goodB p q.name = true := by
  cases names with
  | nil =>
    obtain ⟨k, c, hkc, hcd, hqe⟩ := getProcessesAll_mem hq
    subst hqe
    have hl : p.lookup k = some c := lookup_of_nodup hnd hkc
    rw [setName_name]
    constructor
    · simp [confOf, hl]
    · simp [goodB, hl, hcd]
  | cons n rest =>
    rw [getProcesses_cons] at hq
    obtain ⟨n', c, _, hc, hcd, hqe⟩ := getProcessesNamed_mem hq
    subst hqe
    rw [setName_name]
    constructor
    · simp [confOf, hc]
    · simp [goodB, hc, hcd]

/-- Names of configs produced by `getProcesses` belong to the starting set. -/
theorem getProcesses_mem_start {p : Project} {names : List String} {q : ProcessConfig}
    (hq : q ∈ (getProcesses p names).fst) : q.name ∈ startNames p names := by
  cases names with
  | nil => exact getProcesses_name_keys hq
  | cons n rest =>
    rw [getProcesses_cons] at hq
    obtain ⟨n', c, hn', _, _, hqe⟩ := getProcessesNamed_mem hq
    subst hqe
    exact hn'

/-- The named branch succeeds when every name is declared. -/
theorem getProcessesNamed_err_none {p : Project} {names : List String}
    (h : ∀ n ∈ names, n ∈ p.keys) : (getProcessesNamed p names).snd = none := by
  induction names with
  | nil => rfl
  | cons n rest ih =>
    obtain ⟨c, hc⟩ := keys_lookup (h n (List.mem_cons_self _ _))
    simp only [getProcessesNamed, hc]
    exact ih (fun m hm => h m (List.mem_cons_of_mem _ hm))

/-- If the named branch succeeds, every name was declared. -/
theorem getProcessesNamed_keys_of_err_none {p : Project} {names : List String}
    (h : (getProcessesNamed p names).snd = none) : ∀ n ∈ names, n ∈ p.keys := by
  induction names with
  | nil => intro n hn; cases hn
  | cons n rest ih =>
    cases hl : p.lookup n with
    | none => simp only [getProcessesNamed, hl] at h; cases h
    | some c =>
      simp only [getProcessesNamed, hl] at h
      intro m hm
      rcases List.mem_cons.mp hm with heq | hm'
      · subst heq; exact lookup_keys hl
      · exact ih h m hm'

/-- `getProcesses` succeeds when every name is declared. -/
theorem getProcesses_err_none {p : Project} {names : List String}
    (h : ∀ n ∈ names, n ∈ p.keys) : (getProcesses p names).snd = none := by
  cases names with
  | nil => rfl
  | cons n rest => rw [getProcesses_cons]; exact getProcessesNamed_err_none h

/-- The error of `getProcesses` is never fuel exhaustion. -/
theorem getProcesses_err_shape (p : Project) (names : List String) :
    (getProcesses p names).snd = none ∨
      ∃ n, (getProcesses p names).snd = some (.noSuchProcess n) := by
  cases names with
  | nil => exact Or.inl rfl
  | cons n rest =>
    rw [getProcesses_cons]
    generalize n :: rest = l
    induction l with
    | nil => exact Or.inl rfl
    | cons m ms ih =>
      cases hl : p.lookup m with
      | none => exact Or.inr ⟨m, by simp [getProcessesNamed, hl]⟩
      | some c =>
        simp only [getProcessesNamed, hl]
        exact ih

/-- Every good name in a successfully resolved name list has a config in the
named branch's output. -/
theorem getProcessesNamed_cover {p : Project} {c : ProcessConfig} {n : String}
    (hc : p.lookup n = some c) (hcd : c.disabled = false) {names : List String}
    (herr : (getProcessesNamed p names).snd = none) (hn : n ∈ names) :
    ∃ q ∈ (getProcessesNamed p names).fst, q.name = n := by
  induction names with
  | nil => cases hn
  | cons a as ih =>
    cases hla : p.lookup a with
    | none => simp only [getProcessesNamed, hla] at herr; cases herr
    | some ca =>
      simp only [getProcessesNamed, hla] at herr ⊢
      rcases List.mem_cons.mp hn with heq | hm
      · subst heq
        rw [hla] at hc
        injection hc with hc'
        subst hc'
        refine ⟨ca.setName n, ?_, rfl⟩
        rw [if_neg (by simp [hcd])]
        exact List.mem_cons_self _ _
      · obtain ⟨q, hqm, hqn⟩ := ih herr hm
        refine ⟨q, ?_, hqn⟩
        by_cases hd : ca.disabled = true
        · rwa [if_pos hd]
        · rw [if_neg hd]
          exact List.mem_cons_of_mem _ hqm

/-- Every good name in the starting set has a config in the successful
`getProcesses` output. -/
theorem getProcesses_cover {p : Project} {names : List String}
    (herr : (getProcesses p names).snd = none) :
    ∀ n ∈ startNames p names, goodB p n = true →
      ∃ q ∈ (getProcesses p names).fst, q.name = n := by
  intro n hn hg
  obtain ⟨c, hc⟩ : ∃ c, p.lookup n = some c := by
    cases hl : p.lookup n with
    | none => rw [goodB, hl] at hg; cases hg
    | some c => exact ⟨c, rfl⟩
  have hcd : c.disabled = false := by
    rw [goodB, hc] at hg
    simpa using hg
  cases names with
  | nil =>
    rw [getProcesses_nil]
    refine ⟨c.setName n, ?_, rfl⟩
    exact List.mem_filterMap.mpr ⟨(n, c), lookup_mem hc, by simp [hcd]⟩
  | cons m rest =>
    rw [getProcesses_cons]
    rw [getProcesses_cons] at herr
    exact getProcessesNamed_cover hc hcd herr hn

/-! ### The done set only grows, with fresh declared names -/

/-- A walk's final done set extends the initial one with fresh declared
names. -/
def DoneExt (p : Project) (done done' : List String) : Prop :=
  ∃ new, done' = new ++ done ∧ new.Nodup ∧ ∀ x ∈ new, x ∈ p.keys ∧ x ∉ done

/-- Reflexivity of the extension order. -/
theorem DoneExt.refl (p : Project) (done : List String) : DoneExt p done done :=
  ⟨[], rfl, List.nodup_nil, by simp⟩

/-- An extension contains the original done set. -/
theorem DoneExt.subset {p : Project} {d1 d2 : List String} (h : DoneExt p d1 d2) :
    ∀ x ∈ d1, x ∈ d2 := by
  obtain ⟨new, rfl, _, _⟩ := h
  intro x hx
  exact List.mem_append.mpr (Or.inr hx)

/-- Transitivity of the extension order. -/
theorem DoneExt.trans {p : Project} {d1 d2 d3 : List String}
    (h1 : DoneExt p d1 d2) (h2 : DoneExt p d2 d3) : DoneExt p d1 d3 := by
  obtain ⟨n1, rfl, hnd1, hm1⟩ := h1
  obtain ⟨n2, rfl, hnd2, hm2⟩ := h2
  refine ⟨n2 ++ n1, by rw [List.append_assoc], ?_, ?_⟩
  · refine List.Nodup.append hnd2 hnd1 ?_
    intro x hx2 hx1
    exact (hm2 x hx2).2 (List.mem_append.mpr (Or.inl hx1))
  · intro x hx
    rcases List.mem_append.mp hx with hx2 | hx1
    · exact ⟨(hm2 x hx2).1, fun hxd => (hm2 x hx2).2 (List.mem_append.mpr (Or.inr hxd))⟩
    · exact hm1 x hx1

/-- Marking one fresh declared name is an extension. -/
theorem DoneExt.mark {p : Project} {x : String} {done : List String}
    (hk : x ∈ p.keys) (hx : x ∉ done) : DoneExt p done (x :: done) :=
  ⟨[x], rfl, by simp, by simp [hk, hx]⟩

/-- The loop only extends the done set (given that the recursive call does). -/
theorem withProcessesLoop_ext {p : Project} {rec : List String → List String → WalkRes}
    (hrec : ∀ ns d, DoneExt p d (rec ns d).done) :
    ∀ (procs : List ProcessConfig) (done : List String), (∀ q ∈ procs, q.name ∈ p.keys) →
      DoneExt p done (withProcessesLoop rec procs done).done := by
  intro procs
  induction procs with
  | nil =>
    intro done _
    exact DoneExt.refl p done
  | cons proc rest ih =>
    intro done hk
    have hkp : proc.name ∈ p.keys := hk proc (List.mem_cons_self _ _)
    have hkr : ∀ q ∈ rest, q.name ∈ p.keys := fun q hq => hk q (List.mem_cons_of_mem _ hq)
    simp only [withProcessesLoop]
    by_cases hd : proc.name ∈ done
    · rw [if_pos hd]
      exact ih done hkr
    · rw [if_neg hd]
      have hstep : DoneExt p done
          (if proc.GetDependencies.isEmpty then (⟨[], proc.name :: done, none⟩ : WalkRes)
           else rec proc.GetDependencies (proc.name :: done)).done := by
        have hcons : DoneExt p done (proc.name :: done) := DoneExt.mark hkp hd
        by_cases hdeps : proc.GetDependencies.isEmpty = true
        · rw [if_pos hdeps]
          exact hcons
        · rw [if_neg hdeps]
          exact hcons.trans (hrec _ _)
      cases herr : (if proc.GetDependencies.isEmpty then (⟨[], proc.name :: done, none⟩ : WalkRes)
          else rec proc.GetDependencies (proc.name :: done)).err with
      | some e => exact hstep
      | none => exact hstep.trans (ih _ hkr)

/-- The walk only extends the done set. -/
theorem withProcessesAux_ext (p : Project) :
    ∀ (fuel : Nat) (names done : List String),
      DoneExt p done (withProcessesAux p fuel names done).done := by
  intro fuel
  induction fuel with
  | zero => intro names done; exact DoneExt.refl p done
  | succ fuel ih =>
    intro names done
    simp only [withProcessesAux]
    cases hg : getProcesses p names with
    | mk procs err =>
      cases err with
      | some e => exact DoneExt.refl p done
      | none =>
        exact withProcessesLoop_ext (fun ns d => ih ns d) procs done
          (fun q hq => getProcesses_name_keys
            (show q ∈ (getProcesses p names).fst by rw [hg]; exact hq))

/-! ### Termination: sufficient fuel is never exhausted -/

/-- Number of declared names not yet done. -/
def undone (p : Project) (done : List String) : Nat :=
  (p.keys.toFinset.filter (fun k => k ∉ done)).card

/-- The undone count is at most the number of declared names. -/
theorem undone_le_keys (p : Project) (done : List String) :
    undone p done ≤ p.keys.length :=
  le_trans (Finset.card_filter_le _ _) p.keys.toFinset_card_le

/-- The undone count is antitone in the done set. -/
theorem undone_mono (p : Project) {d1 d2 : List String} (h : ∀ x ∈ d1, x ∈ d2) :
    undone p d2 ≤ undone p d1 := by
  apply Finset.card_le_card
  intro x hx
  rw [Finset.mem_filter] at hx ⊢
  exact ⟨hx.1, fun hm => hx.2 (h x hm)⟩

/-- Marking a fresh declared name strictly decreases the undone count. -/
theorem undone_cons_lt (p : Project) {x : String} {done : List String}
    (hk : x ∈ p.keys) (hx : x ∉ done) :
    undone p (x :: done) < undone p done := by
  have hsub : p.keys.toFinset.filter (fun k => k ∉ x :: done) ⊆
      p.keys.toFinset.filter (fun k => k ∉ done) := by
    intro y hy
    rw [Finset.mem_filter] at hy ⊢
    exact ⟨hy.1, fun hm => hy.2 (List.mem_cons_of_mem _ hm)⟩
  have hx2 : ∃ y ∈ p.keys.toFinset.filter (fun k => k ∉ done),
      y ∉ p.keys.toFinset.filter (fun k => k ∉ x :: done) := by
    refine ⟨x, ?_, ?_⟩
    · rw [Finset.mem_filter]
      exact ⟨List.mem_toFinset.mpr hk, hx⟩
    · rw [Finset.mem_filter]
      intro hcon
      exact hcon.2 (List.mem_cons_self _ _)
  exact Finset.card_lt_card ((Finset.ssubset_iff_of_subset hsub).mpr hx2)

/-- The loop never runs out of fuel while the fuel exceeds the undone count
(given that the recursive call does not under strictly smaller bounds). -/
theorem withProcessesLoop_fuel {p : Project} {fuel : Nat}
    (hrec : ∀ ns d, undone p d < fuel → (withProcessesAux p fuel ns d).err ≠ some .outOfFuel) :
    ∀ (procs : List ProcessConfig) (done : List String), (∀ q ∈ procs, q.name ∈ p.keys) →
      undone p done ≤ fuel →
      (withProcessesLoop (withProcessesAux p fuel) procs done).err ≠ some .outOfFuel := by
  intro procs
  induction procs with
  | nil =>
    intro done _ _
    simp [withProcessesLoop]
  | cons proc rest ih =>
    intro done hk hfuel
    have hkp : proc.name ∈ p.keys := hk proc (List.mem_cons_self _ _)
    have hkr : ∀ q ∈ rest, q.name ∈ p.keys := fun q hq => hk q (List.mem_cons_of_mem _ hq)
    simp only [withProcessesLoop]
    by_cases hd : proc.name ∈ done
    · rw [if_pos hd]
      exact ih done hkr hfuel
    · rw [if_neg hd]
      have hlt : undone p (proc.name :: done) < undone p done := undone_cons_lt p hkp hd
      by_cases hdeps : proc.GetDependencies.isEmpty = true
      · rw [if_pos hdeps]
        exact ih (proc.name :: done) hkr (le_of_lt (lt_of_lt_of_le hlt hfuel))
      · rw [if_neg hdeps]
        cases herr : (withProcessesAux p fuel proc.GetDependencies (proc.name :: done)).err with
        | some e =>
          have hne := hrec proc.GetDependencies (proc.name :: done) (lt_of_lt_of_le hlt hfuel)
          rw [herr] at hne
          exact hne
        | none =>
          have hsub := withProcessesAux_ext p fuel proc.GetDependencies (proc.name :: done)
          have hle : undone p (withProcessesAux p fuel proc.GetDependencies (proc.name :: done)).done ≤
              undone p (proc.name :: done) := undone_mono p hsub.subset
          exact ih _ hkr (le_trans hle (le_of_lt (lt_of_lt_of_le hlt hfuel)))

/-- The walk never runs out of fuel while the fuel exceeds the undone count:
the done set is marked before recursing, so the recursion depth is bounded by
the number of declared processes — on every input, cyclic or not. -/
theorem withProcessesAux_fuel (p : Project) :
    ∀ (fuel : Nat) (names done : List String), undone p done < fuel →
      (withProcessesAux p fuel names done).err ≠ some .outOfFuel := by
  intro fuel
  induction fuel with
  | zero =>
    intro names done h
    exact absurd h (Nat.not_lt_zero _)
  | succ fuel ih =>
    intro names done h
    simp only [withProcessesAux]
    cases hg : getProcesses p names with
    | mk procs err =>
      cases err with
      | some e =>
        rcases getProcesses_err_shape p names with hs | ⟨n, hs⟩
        · rw [hg] at hs
          simp at hs
        · rw [hg] at hs
          simp only at hs
          injection hs with hs'
          subst hs'
          simp
      | none =>
        exact withProcessesLoop_fuel (fun ns d hh => ih ns d hh) procs done
          (fun q hq => getProcesses_name_keys
            (show q ∈ (getProcesses p names).fst by rw [hg]; exact hq))
          (Nat.lt_succ_iff.mp h)

/-! ### A closed dependency graph walks without error -/

/-- The dependency names of a walked config are the declared dependency names
of its own map key. -/
theorem depNamesOf_conf {p : Project} {n : String} {q : ProcessConfig}
    (h : confOf p n = some q) : depNamesOf p n = q.GetDependencies := by
  unfold confOf at h
  cases hl : p.lookup n with
  | none => rw [hl] at h; cases h
  | some c =>
    rw [hl] at h
    injection h with h'
    subst h'
    simp only [depNamesOf, hl]
    exact (setName_deps c n).symm

/-- A config retrieved by `confOf` names a declared process. -/
theorem confOf_keys {p : Project} {n : String} {q : ProcessConfig}
    (h : confOf p n = some q) : n ∈ p.keys := by
  unfold confOf at h
  cases hl : p.lookup n with
  | none => rw [hl] at h; cases h
  | some c => exact lookup_keys hl

/-- The loop finishes without error when the graph is closed (given that the
recursive call does for declared names under strictly smaller bounds). -/
theorem withProcessesLoop_noerr {p : Project} {fuel : Nat}
    (hclosed : ∀ a ∈ p.keys, ∀ b ∈ depNamesOf p a, b ∈ p.keys)
    (hrec : ∀ ns d, undone p d < fuel → (∀ n ∈ ns, n ∈ p.keys) →
      (withProcessesAux p fuel ns d).err = none) :
    ∀ (procs : List ProcessConfig) (done : List String),
      (∀ q ∈ procs, confOf p q.name = some q) →
      undone p done ≤ fuel →
      (withProcessesLoop (withProcessesAux p fuel) procs done).err = none := by
  intro procs
  induction procs with
  | nil =>
    intro done _ _
    simp [withProcessesLoop]
  | cons proc rest ih =>
    intro done hk hfuel
    have hkp : confOf p proc.name = some proc := hk proc (List.mem_cons_self _ _)
    have hkeys : proc.name ∈ p.keys := confOf_keys hkp
    have hkr : ∀ q ∈ rest, confOf p q.name = some q :=
      fun q hq => hk q (List.mem_cons_of_mem _ hq)
    have hdepskeys : ∀ b ∈ proc.GetDependencies, b ∈ p.keys := by
      intro b hb
      exact hclosed proc.name hkeys b (by rw [depNamesOf_conf hkp]; exact hb)
    simp only [withProcessesLoop]
    by_cases hd : proc.name ∈ done
    · rw [if_pos hd]
      exact ih done hkr hfuel
    · rw [if_neg hd]
      have hlt : undone p (proc.name :: done) < undone p done := undone_cons_lt p hkeys hd
      by_cases hdeps : proc.GetDependencies.isEmpty = true
      · rw [if_pos hdeps]
        exact ih (proc.name :: done) hkr (le_of_lt (lt_of_lt_of_le hlt hfuel))
      · rw [if_neg hdeps]
        cases herr : (withProcessesAux p fuel proc.GetDependencies (proc.name :: done)).err with
        | some e =>
          have hne := hrec proc.GetDependencies (proc.name :: done)
            (lt_of_lt_of_le hlt hfuel) hdepskeys
          rw [herr] at hne
          cases hne
        | none =>
          have hsub := withProcessesAux_ext p fuel proc.GetDependencies (proc.name :: done)
          have hle : undone p (withProcessesAux p fuel proc.GetDependencies (proc.name :: done)).done ≤
              undone p (proc.name :: done) := undone_mono p hsub.subset
          exact ih _ hkr (le_trans hle (le_of_lt (lt_of_lt_of_le hlt hfuel)))

/-- With unique keys, a closed dependency graph, declared starting names, and
sufficient fuel, the walk finishes without error — no acyclicity is needed. -/
theorem withProcessesAux_noerr (p : Project) (hnd : p.keys.Nodup)
    (hclosed : ∀ a ∈ p.keys, ∀ b ∈ depNamesOf p a, b ∈ p.keys) :
    ∀ (fuel : Nat) (names done : List String), undone p done < fuel →
      (∀ n ∈ names, n ∈ p.keys) →
      (withProcessesAux p fuel names done).err = none := by
  intro fuel
  induction fuel with
  | zero =>
    intro names done h _
    exact absurd h (Nat.not_lt_zero _)
  | succ fuel ih =>
    intro names done h hnames
    simp only [withProcessesAux]
    cases hg : getProcesses p names with
    | mk procs err =>
      cases err with
      | some e =>
        have hcontra := getProcesses_err_none hnames
        rw [hg] at hcontra
        simp at hcontra
      | none =>
        apply withProcessesLoop_noerr hclosed (fun ns d h1 h2 => ih ns d h1 h2) procs done
        · intro q hq
          exact (getProcesses_mem_conf hnd
            (show q ∈ (getProcesses p names).fst by rw [hg]; exact hq)).1
        · exact Nat.lt_succ_iff.mp h

/-! ### Unfolding equations for the loop -/

/-- The per-process dependency walk inside the loop body: a no-op for an empty
dependency list (`project.go:202` guards the recursion), recursion
otherwise. -/
def loopSub (rec : List String → List String → WalkRes) (proc : ProcessConfig)
    (done : List String) : WalkRes :=
  if proc.GetDependencies.isEmpty then ⟨[], proc.name :: done, none⟩
  else rec proc.GetDependencies (proc.name :: done)

/-- Loop equation: an already-done process is skipped. -/
theorem withProcessesLoop_cons_skip {rec : List String → List String → WalkRes}
    {proc : ProcessConfig} {rest : List ProcessConfig} {done : List String}
    (hd : proc.name ∈ done) :
    withProcessesLoop rec (proc :: rest) done = withProcessesLoop rec rest done := by
  simp only [withProcessesLoop]
  rw [if_pos hd]

/-- Loop equation: a fresh process is marked, its dependencies walked, and —
unless that aborts — the process is visited before the loop continues. -/
theorem withProcessesLoop_cons_new {rec : List String → List String → WalkRes}
    {proc : ProcessConfig} {rest : List ProcessConfig} {done : List String}
    (hd : proc.name ∉ done) :
    withProcessesLoop rec (proc :: rest) done =
      match (loopSub rec proc done).err with
      | some e => ⟨(loopSub rec proc done).visited, (loopSub rec proc done).done, some e⟩
      | none =>
        ⟨(loopSub rec proc done).visited ++
            proc :: (withProcessesLoop rec rest (loopSub rec proc done).done).visited,
         (withProcessesLoop rec rest (loopSub rec proc done).done).done,
         (withProcessesLoop rec rest (loopSub rec proc done).done).err⟩ := by
  simp only [withProcessesLoop, loopSub]
  rw [if_neg hd]

/-- The starting set of a non-empty name list is that list. -/
theorem startNames_ne {p : Project} {ns : List String} (h : ns ≠ []) :
    startNames p ns = ns := by
  cases ns with
  | nil => exact absurd rfl h
  | cons a as => rfl

/-- The starting set of the empty name list is every declared name. -/
theorem startNames_nil (p : Project) : startNames p [] = p.keys := rfl

/-- A successful `getProcesses` had all its names declared. -/
theorem getProcesses_keys_of_err_none {p : Project} {names : List String}
    (h : (getProcesses p names).snd = none) : ∀ n ∈ names, n ∈ p.keys := by
  cases names with
  | nil => intro n hn; cases hn
  | cons m rest =>
    rw [getProcesses_cons] at h
    exact getProcessesNamed_keys_of_err_none h

/-! ### Soundness: every name the walk marks is reachable -/

/-- Loop half of soundness: every name in the final done set was already done
or satisfies the reachability predicate `R`, assuming the processed configs'
names satisfy `R` and `R` is closed under good dependencies. -/
theorem withProcessesLoop_sound {p : Project} {fuel : Nat} (R : String → Prop)
    (hstep : ∀ a, R a → ∀ d ∈ depNamesOf p a, goodB p d = true → R d)
    (hrec : ∀ ns d, ns ≠ [] → (∀ n ∈ ns, goodB p n = true → R n) →
      ∀ x ∈ (withProcessesAux p fuel ns d).done, x ∈ d ∨ R x) :
    ∀ (procs : List ProcessConfig) (done : List String),
      (∀ q ∈ procs, confOf p q.name = some q ∧ R q.name) →
      ∀ x ∈ (withProcessesLoop (withProcessesAux p fuel) procs done).done,
        x ∈ done ∨ R x := by
  intro procs
  induction procs with
  | nil =>
    intro done _ x hx
    exact Or.inl hx
  | cons proc rest ih =>
    intro done hk x
    have hkp := hk proc (List.mem_cons_self _ _)
    have hkr : ∀ q ∈ rest, confOf p q.name = some q ∧ R q.name :=
      fun q hq => hk q (List.mem_cons_of_mem _ hq)
    by_cases hd : proc.name ∈ done
    · rw [withProcessesLoop_cons_skip hd]
      exact ih done hkr x
    · rw [withProcessesLoop_cons_new hd]
      by_cases hdeps : proc.GetDependencies.isEmpty = true
      · have hsubeq : loopSub (withProcessesAux p fuel) proc done =
            ⟨[], proc.name :: done, none⟩ := by
          simp only [loopSub]
          rw [if_pos hdeps]
        rw [hsubeq]
        intro hx
        rcases ih (proc.name :: done) hkr x hx with hx1 | hx2
        · rcases List.mem_cons.mp hx1 with heq | hx0
          · subst heq
            exact Or.inr hkp.2
          · exact Or.inl hx0
        · exact Or.inr hx2
      · have hsubeq : loopSub (withProcessesAux p fuel) proc done =
            withProcessesAux p fuel proc.GetDependencies (proc.name :: done) := by
          simp only [loopSub]
          rw [if_neg hdeps]
        rw [hsubeq]
        have hne : proc.GetDependencies ≠ [] := by
          intro hcon
          rw [hcon] at hdeps
          exact hdeps rfl
        have hdepsR : ∀ n ∈ proc.GetDependencies, goodB p n = true → R n := by
          intro n hn hg
          exact hstep proc.name hkp.2 n (by rw [depNamesOf_conf hkp.1]; exact hn) hg
        have hsubR : ∀ y ∈ (withProcessesAux p fuel proc.GetDependencies (proc.name :: done)).done,
            y ∈ done ∨ R y := by
          intro y hy
          rcases hrec _ _ hne hdepsR y hy with hy1 | hy2
          · rcases List.mem_cons.mp hy1 with heq | hy0
            · subst heq
              exact Or.inr hkp.2
            · exact Or.inl hy0
          · exact Or.inr hy2
        cases herr : (withProcessesAux p fuel proc.GetDependencies (proc.name :: done)).err with
        | some e =>
          intro hx
          exact hsubR x hx
        | none =>
          intro hx
          rcases ih _ hkr x hx with hx1 | hx2
          · exact hsubR x hx1
          · exact Or.inr hx2

/-- Soundness of the walk: every name in the final done set was already done or
is reachable (in the sense of any predicate `R` holding on the good starting
names and closed under good dependencies). -/
theorem withProcessesAux_sound (p : Project) (hnd : p.keys.Nodup) (R : String → Prop)
    (hstep : ∀ a, R a → ∀ d ∈ depNamesOf p a, goodB p d = true → R d) :
    ∀ (fuel : Nat) (names done : List String),
      (∀ n ∈ startNames p names, goodB p n = true → R n) →
      ∀ x ∈ (withProcessesAux p fuel names done).done, x ∈ done ∨ R x := by
  intro fuel
  induction fuel with
  | zero =>
    intro names done _ x hx
    exact Or.inl hx
  | succ fuel ih =>
    intro names done hR x
    simp only [withProcessesAux]
    cases hg : getProcesses p names with
    | mk procs err =>
      cases err with
      | some e =>
        intro hx
        exact Or.inl hx
      | none =>
        refine withProcessesLoop_sound R hstep ?_ procs done ?_ x
        · exact fun ns d hne hns => ih ns d (by rw [startNames_ne hne]; exact hns)
        · intro q hq
          have hqf : q ∈ (getProcesses p names).fst := by rw [hg]; exact hq
          have hconf := getProcesses_mem_conf hnd hqf
          exact ⟨hconf.1, hR q.name (getProcesses_mem_start hqf) hconf.2⟩

/-! ### A successful walk covers its good names, and every marked process had
its dependencies resolved and walked -/

/-- Loop half: if the loop finishes without error, every processed config's
name is done afterwards, and every name in the final done set either was done
before or is a newly marked process whose dependency names are all declared
and whose good dependencies are in the final done set. -/
theorem withProcessesLoop_goodwalk {p : Project} {fuel : Nat}
    (hrec : ∀ ns d, ns ≠ [] → (withProcessesAux p fuel ns d).err = none →
      ((∀ n ∈ ns, n ∈ p.keys) ∧
       (∀ n ∈ ns, goodB p n = true → n ∈ (withProcessesAux p fuel ns d).done) ∧
       (∀ x ∈ (withProcessesAux p fuel ns d).done, x ∈ d ∨
         ((∀ b ∈ depNamesOf p x, b ∈ p.keys) ∧
          ∀ b ∈ depNamesOf p x, goodB p b = true →
            b ∈ (withProcessesAux p fuel ns d).done)))) :
    ∀ (procs : List ProcessConfig) (done : List String),
      (∀ q ∈ procs, confOf p q.name = some q) →
      (withProcessesLoop (withProcessesAux p fuel) procs done).err = none →
      ((∀ q ∈ procs, q.name ∈ (withProcessesLoop (withProcessesAux p fuel) procs done).done) ∧
       (∀ x ∈ (withProcessesLoop (withProcessesAux p fuel) procs done).done, x ∈ done ∨
         ((∀ b ∈ depNamesOf p x, b ∈ p.keys) ∧
          ∀ b ∈ depNamesOf p x, goodB p b = true →
            b ∈ (withProcessesLoop (withProcessesAux p fuel) procs done).done))) := by
  intro procs
  induction procs with
  | nil =>
    intro done _ _
    exact ⟨fun q hq => absurd hq (List.not_mem_nil q), fun x hx => Or.inl hx⟩
  | cons proc rest ih =>
    intro done hk herr
    have hkp : confOf p proc.name = some proc := hk proc (List.mem_cons_self _ _)
    have hkeysp : proc.name ∈ p.keys := confOf_keys hkp
    have hkr : ∀ q ∈ rest, confOf p q.name = some q :=
      fun q hq => hk q (List.mem_cons_of_mem _ hq)
    have hkeysr : ∀ q ∈ rest, q.name ∈ p.keys := fun q hq => confOf_keys (hkr q hq)
    by_cases hd : proc.name ∈ done
    · rw [withProcessesLoop_cons_skip hd] at herr ⊢
      obtain ⟨hi, hii⟩ := ih done hkr herr
      refine ⟨?_, hii⟩
      intro q hq
      rcases List.mem_cons.mp hq with heq | hq'
      · subst heq
        exact (withProcessesLoop_ext (fun ns d => withProcessesAux_ext p fuel ns d)
          rest done hkeysr).subset _ hd
      · exact hi q hq'
    · by_cases hdeps : proc.GetDependencies.isEmpty = true
      · have hdnil : proc.GetDependencies = [] := by
          cases hh : proc.GetDependencies with
          | nil => rfl
          | cons a as => rw [hh] at hdeps; cases hdeps
        have hsubeq : loopSub (withProcessesAux p fuel) proc done =
            ⟨[], proc.name :: done, none⟩ := by
          simp only [loopSub]
          rw [if_pos hdeps]
        rw [withProcessesLoop_cons_new hd, hsubeq] at herr ⊢
        obtain ⟨hi, hii⟩ := ih (proc.name :: done) hkr herr
        constructor
        · intro q hq
          rcases List.mem_cons.mp hq with heq | hq'
          · rw [heq]
            exact (withProcessesLoop_ext (fun ns d => withProcessesAux_ext p fuel ns d)
              rest (proc.name :: done) hkeysr).subset _ (List.mem_cons_self _ _)
          · exact hi q hq'
        · intro x hx
          rcases hii x hx with hx1 | hmk
          · rcases List.mem_cons.mp hx1 with heq | hx0
            · subst heq
              refine Or.inr ⟨?_, ?_⟩ <;> intro b hb <;>
                rw [depNamesOf_conf hkp, hdnil] at hb <;> cases hb
            · exact Or.inl hx0
          · exact Or.inr hmk
      · have hne : proc.GetDependencies ≠ [] := by
          intro hcon
          rw [hcon] at hdeps
          exact hdeps rfl
        have hsubeq : loopSub (withProcessesAux p fuel) proc done =
            withProcessesAux p fuel proc.GetDependencies (proc.name :: done) := by
          simp only [loopSub]
          rw [if_neg hdeps]
        rw [withProcessesLoop_cons_new hd, hsubeq] at herr ⊢
        cases hse : (withProcessesAux p fuel proc.GetDependencies (proc.name :: done)).err with
        | some e =>
          rw [hse] at herr
          have hcon : (some e : Option WalkErr) = none := herr
          exact Option.noConfusion hcon
        | none =>
          rw [hse] at herr
          have htailerr : (withProcessesLoop (withProcessesAux p fuel) rest
              (withProcessesAux p fuel proc.GetDependencies (proc.name :: done)).done).err =
              none := herr
          obtain ⟨hsn, hsc, hsm⟩ := hrec _ _ hne hse
          obtain ⟨hi, hii⟩ := ih _ hkr htailerr
          have hsub_sub : ∀ y ∈ (withProcessesAux p fuel proc.GetDependencies
                (proc.name :: done)).done,
              y ∈ (withProcessesLoop (withProcessesAux p fuel) rest
                (withProcessesAux p fuel proc.GetDependencies (proc.name :: done)).done).done :=
            (withProcessesLoop_ext (fun ns d => withProcessesAux_ext p fuel ns d)
              rest _ hkeysr).subset
          have hdone1_sub : ∀ y ∈ proc.name :: done,
              y ∈ (withProcessesAux p fuel proc.GetDependencies (proc.name :: done)).done :=
            (withProcessesAux_ext p fuel _ _).subset
          constructor
          · intro q hq
            rcases List.mem_cons.mp hq with heq | hq'
            · rw [heq]
              exact hsub_sub _ (hdone1_sub _ (List.mem_cons_self _ _))
            · exact hi q hq'
          · intro x hx
            rcases hii x hx with hx1 | hmk
            · rcases hsm x hx1 with hx2 | hmk2
              · rcases List.mem_cons.mp hx2 with heq | hx0
                · subst heq
                  refine Or.inr ⟨?_, ?_⟩
                  · intro b hb
                    rw [depNamesOf_conf hkp] at hb
                    exact hsn b hb
                  · intro b hb hg
                    rw [depNamesOf_conf hkp] at hb
                    exact hsub_sub _ (hsc b hb hg)
                · exact Or.inl hx0
              · exact Or.inr ⟨hmk2.1, fun b hb hg => hsub_sub _ (hmk2.2 b hb hg)⟩
            · exact Or.inr hmk

/-- If the walk finishes without error: its names were all declared, every good
name in the starting set ends up done, and every newly done name is a process
whose dependency names are all declared and whose good dependencies are also
done. -/
theorem withProcessesAux_goodwalk (p : Project) (hnd : p.keys.Nodup) :
    ∀ (fuel : Nat) (names done : List String),
      (withProcessesAux p fuel names done).err = none →
      ((∀ n ∈ names, n ∈ p.keys) ∧
       (∀ n ∈ startNames p names, goodB p n = true →
          n ∈ (withProcessesAux p fuel names done).done) ∧
       (∀ x ∈ (withProcessesAux p fuel names done).done, x ∈ done ∨
         ((∀ b ∈ depNamesOf p x, b ∈ p.keys) ∧
          ∀ b ∈ depNamesOf p x, goodB p b = true →
            b ∈ (withProcessesAux p fuel names done).done))) := by
  intro fuel
  induction fuel with
  | zero =>
    intro names done herr
    have hcon : (some WalkErr.outOfFuel : Option WalkErr) = none := herr
    exact Option.noConfusion hcon
  | succ fuel ih =>
    intro names done herr
    have hrec : ∀ ns d, ns ≠ [] → (withProcessesAux p fuel ns d).err = none →
        ((∀ n ∈ ns, n ∈ p.keys) ∧
         (∀ n ∈ ns, goodB p n = true → n ∈ (withProcessesAux p fuel ns d).done) ∧
         (∀ x ∈ (withProcessesAux p fuel ns d).done, x ∈ d ∨
           ((∀ b ∈ depNamesOf p x, b ∈ p.keys) ∧
            ∀ b ∈ depNamesOf p x, goodB p b = true →
              b ∈ (withProcessesAux p fuel ns d).done))) := by
      intro ns d hne he
      obtain ⟨h1, h2, h3⟩ := ih ns d he
      rw [startNames_ne hne] at h2
      exact ⟨h1, h2, h3⟩
    simp only [withProcessesAux] at herr ⊢
    cases hg : getProcesses p names with
    | mk procs err =>
      rw [hg] at herr
      cases err with
      | some e =>
        have hcon : (some e : Option WalkErr) = none := herr
        exact Option.noConfusion hcon
      | none =>
        have herr' : (withProcessesLoop (withProcessesAux p fuel) procs done).err = none := herr
        have hconf : ∀ q ∈ procs, confOf p q.name = some q := by
          intro q hq
          exact (getProcesses_mem_conf hnd
            (show q ∈ (getProcesses p names).fst by rw [hg]; exact hq)).1
        obtain ⟨hi, hii⟩ := withProcessesLoop_goodwalk hrec procs done hconf herr'
        refine ⟨getProcesses_keys_of_err_none (by rw [hg]), ?_, hii⟩
        intro n hn hgood
        obtain ⟨q, hqm, hqn⟩ := getProcesses_cover
          (show (getProcesses p names).snd = none by rw [hg]) n hn hgood
        rw [hg] at hqm
        have hmem := hi q hqm
        rw [hqn] at hmem
        exact hmem

/-! ### Claims C3 and C4 -/

/-- Claim C3 counterexample: on the cyclic project, the walk terminates with no
error, visiting each process exactly once — there is no unbounded recursion,
because each process is marked done before its dependencies are walked. -/
theorem walker_cycle_terminates_counterexample :
    ("b" ∈ depNamesOf Pcyc "a" ∧ "a" ∈ depNamesOf Pcyc "b" ∧
      goodB Pcyc "a" = true ∧ goodB Pcyc "b" = true) ∧
    (WithProcesses Pcyc ["a"] 10).err = none ∧
    (WithProcesses Pcyc ["a"] 10).visited.map ProcessConfig.name = ["b", "a"] :=
  ⟨by decide, by decide, by decide⟩

/-- Claim C3 (amended): the walker does not detect cycles, but it terminates on
every input — cyclic or acyclic — because the shared done set is marked before
the dependency recursion; any fuel exceeding the number of declared processes
is never exhausted. -/
theorem walker_terminates (p : Project) (names : List String) (fuel : Nat)
    (hfuel : p.keys.length < fuel) :
    (WithProcesses p names fuel).err ≠ some WalkErr.outOfFuel :=
  withProcessesAux_fuel p fuel names [] (lt_of_le_of_lt (undone_le_keys p []) hfuel)

/-- Witness for C3's amended claim at the cyclic project. -/
theorem walker_terminates_witness :
    (WithProcesses Pcyc ["a"] 4).err ≠ some WalkErr.outOfFuel :=
  walker_terminates Pcyc ["a"] 4 (by decide)

/-- Reachability through non-disabled declared processes: the starting set is
the given names (or all declared names when none are given), and the walk
follows declared dependency edges into good processes. -/
inductive ReachableFrom (p : Project) (names : List String) : String → Prop where
  | base (n : String) : n ∈ startNames p names → goodB p n = true →
      ReachableFrom p names n
  | step (a b : String) : ReachableFrom p names a → b ∈ depNamesOf p a →
      goodB p b = true → ReachableFrom p names b

/-- Claim C4: if some reachable process declares a dependency name outside the
declared set, the walk fails with a no-such-process error; dependency names
that are declared but disabled cause no error — with every dependency name of
every declared process declared, the walk succeeds. -/
theorem walker_missing_dep (p : Project) (names : List String) (fuel : Nat)
    (hnd : p.keys.Nodup)
    (hnames : ∀ n ∈ names, n ∈ p.keys)
    (hfuel : p.keys.length < fuel) :
    ((∃ x, ReachableFrom p names x ∧ ∃ d ∈ depNamesOf p x, d ∉ p.keys) →
      ∃ n, (WithProcesses p names fuel).err = some (.noSuchProcess n)) ∧
    ((∀ a ∈ p.keys, ∀ b ∈ depNamesOf p a, b ∈ p.keys) →
      (WithProcesses p names fuel).err = none) := by
  constructor
  · rintro ⟨x, hreach, d, hd, hdk⟩
    have herrne : (WithProcesses p names fuel).err ≠ none := by
      intro herr
      obtain ⟨h1, h2, h3⟩ := withProcessesAux_goodwalk p hnd fuel names [] herr
      have hindone : ∀ y, ReachableFrom p names y →
          y ∈ (WithProcesses p names fuel).done := by
        intro y hy
        induction hy with
        | base n hn hg => exact h2 n hn hg
        | step a b ha hab hg iha =>
          rcases h3 a iha with hain | hmk
          · cases hain
          · exact hmk.2 b hab hg
      have hx := hindone x hreach
      rcases h3 x hx with hxin | hmk
      · cases hxin
      · exact hdk (hmk.1 d hd)
    cases he : (WithProcesses p names fuel).err with
    | none => exact absurd he herrne
    | some e =>
      cases e with
      | noSuchProcess n => exact ⟨n, rfl⟩
      | outOfFuel =>
        exact absurd he (withProcessesAux_fuel p fuel names []
          (lt_of_le_of_lt (undone_le_keys p []) hfuel))
  · intro hclosed
    exact withProcessesAux_noerr p hnd hclosed fuel names []
      (lt_of_le_of_lt (undone_le_keys p []) hfuel) hnames

/-- Witness for C4 at the project whose process `b` depends on the undeclared
name `missing`: the walk reports an error. -/
theorem walker_missing_dep_witness :
    (WithProcesses Pbad [] 4).err ≠ none := by
  have h := (walker_missing_dep Pbad [] 4 (by decide) (by intro n hn; cases hn) (by decide)).1
  obtain ⟨n, hn⟩ := h ⟨"b", ReachableFrom.base "b" (by decide) (by decide),
    "missing", by decide, by decide⟩
  rw [hn]
  intro hcon
  cases hcon

/-! ### Dependency ordering of the visit sequence -/

/-- Each visited config's good dependencies appear in the emitted-so-far set,
which grows with every visit. -/
def GoodOrder (p : Project) : List String → List ProcessConfig → Prop
  | _, [] => True
  | emitted, q :: rest =>
    (∀ d ∈ q.GetDependencies, goodB p d = true → d ∈ emitted) ∧
    GoodOrder p (emitted ++ [q.name]) rest

/-- The ordering predicate is monotone in the emitted set. -/
theorem goodOrder_mono {p : Project} :
    ∀ {l : List ProcessConfig} {e1 e2 : List String},
      (∀ x ∈ e1, x ∈ e2) → GoodOrder p e1 l → GoodOrder p e2 l := by
  intro l
  induction l with
  | nil =>
    intro e1 e2 _ _
    trivial
  | cons q rest ih =>
    intro e1 e2 hsub hgo
    refine ⟨fun d hd hg => hsub d (hgo.1 d hd hg), ?_⟩
    refine ih ?_ hgo.2
    intro x hx
    rcases List.mem_append.mp hx with h1 | h2
    · exact List.mem_append.mpr (Or.inl (hsub x h1))
    · exact List.mem_append.mpr (Or.inr h2)

/-- The ordering predicate composes over concatenation. -/
theorem goodOrder_append {p : Project} :
    ∀ {l1 l2 : List ProcessConfig} {e : List String},
      GoodOrder p e l1 → GoodOrder p (e ++ l1.map ProcessConfig.name) l2 →
      GoodOrder p e (l1 ++ l2) := by
  intro l1
  induction l1 with
  | nil =>
    intro l2 e _ h2
    simpa using h2
  | cons q rest ih =>
    intro l2 e h1 h2
    refine ⟨h1.1, ?_⟩
    refine ih h1.2 ?_
    refine goodOrder_mono ?_ h2
    intro x hx
    simp only [List.map_cons, List.mem_append, List.mem_cons, List.mem_singleton] at hx ⊢
    tauto

/-- Positional form of the ordering predicate: the good dependencies of the
`k`-th visited config appear among the first `k` visited names (or were
emitted before). -/
theorem goodOrder_take {p : Project} :
    ∀ {l : List ProcessConfig} {e : List String}, GoodOrder p e l →
      ∀ (k : Nat) (q : ProcessConfig), l[k]? = some q →
        ∀ d ∈ q.GetDependencies, goodB p d = true →
          d ∈ e ∨ d ∈ (l.take k).map ProcessConfig.name := by
  intro l
  induction l with
  | nil =>
    intro e _ k q hk
    rw [List.getElem?_nil] at hk
    cases hk
  | cons q0 rest ih =>
    intro e hgo k q hk d hd hg
    cases k with
    | zero =>
      rw [List.getElem?_cons_zero] at hk
      injection hk with hk'
      subst hk'
      exact Or.inl (hgo.1 d hd hg)
    | succ k =>
      rw [List.getElem?_cons_succ] at hk
      rcases ih hgo.2 k q hk d hd hg with h1 | h2
      · rcases List.mem_append.mp h1 with he | hq0
        · exact Or.inl he
        · right
          simp only [List.take_succ_cons, List.map_cons]
          rw [List.mem_singleton] at hq0
          exact List.mem_cons.mpr (Or.inl hq0)
      · right
        simp only [List.take_succ_cons, List.map_cons]
        exact List.mem_cons_of_mem _ h2

/-- Membership form of the ordering predicate: every visited config's good
dependencies were emitted before or appear among the visited names. -/
theorem goodOrder_mem_deps {p : Project} {l : List ProcessConfig} {e : List String}
    (hgo : GoodOrder p e l) :
    ∀ q ∈ l, ∀ d ∈ q.GetDependencies, goodB p d = true →
      d ∈ e ∨ d ∈ l.map ProcessConfig.name := by
  intro q hq d hd hg
  obtain ⟨k, hk⟩ := List.mem_iff_getElem?.mp hq
  rcases goodOrder_take hgo k q hk d hd hg with h1 | h2
  · exact Or.inl h1
  · exact Or.inr (List.map_subset ProcessConfig.name (List.take_subset k l) h2)

/-! ### The main walk invariant -/

/-- Conclusions of the main walk lemma, for a walk segment entered with done
set `done`, names `emitted` already visited by the enclosing walk, and names
`P` marked but still on the recursion stack: the final done set is exactly the
visited names plus the initial done set; the visited names are fresh and
unrepeated; every visited config is the declared config of its key, good; the
visit sequence respects dependencies relative to `emitted`; and every visited
name ranks strictly below every pending name. -/
def MainConc (p : Project) (rank : String → Nat) (done emitted P : List String)
    (res : WalkRes) : Prop :=
  (∀ x, x ∈ res.done ↔ x ∈ res.visited.map ProcessConfig.name ∨ x ∈ done) ∧
  (res.visited.map ProcessConfig.name).Nodup ∧
  (∀ x ∈ res.visited.map ProcessConfig.name, x ∉ done) ∧
  (∀ q ∈ res.visited, confOf p q.name = some q ∧ goodB p q.name = true) ∧
  GoodOrder p emitted res.visited ∧
  (∀ x ∈ P, ∀ m ∈ res.visited.map ProcessConfig.name, rank m < rank x)

/-- Marking a name moves it from nowhere into the emitted part of the done
partition. -/
theorem hdone_mark {done emitted P : List String} {n : String}
    (Hdone : ∀ x, x ∈ done ↔ x ∈ emitted ∨ x ∈ P) :
    ∀ x, x ∈ n :: done ↔ x ∈ emitted ++ [n] ∨ x ∈ P := by
  intro x
  rw [List.mem_cons, List.mem_append, List.mem_singleton, Hdone x]
  tauto

/-- Marking a name and pushing it onto the pending stack preserves the done
partition. -/
theorem hdone_push {done emitted P : List String} {n : String}
    (Hdone : ∀ x, x ∈ done ↔ x ∈ emitted ∨ x ∈ P) :
    ∀ x, x ∈ n :: done ↔ x ∈ emitted ∨ x ∈ n :: P := by
  intro x
  rw [List.mem_cons, List.mem_cons, Hdone x]
  tauto

/-- Loop half of the main walk lemma. -/
theorem withProcessesLoop_main {p : Project} {rank : String → Nat} {fuel : Nat}
    (hnd : p.keys.Nodup)
    (hrank : ∀ a ∈ p.keys, ∀ b ∈ depNamesOf p a, rank b < rank a)
    (hrec : ∀ ns d e Pp, (∀ x, x ∈ d ↔ x ∈ e ∨ x ∈ Pp) →
      (∀ x ∈ Pp, ∀ n ∈ ns, goodB p n = true → rank n < rank x) →
      ns ≠ [] → (withProcessesAux p fuel ns d).err = none →
      MainConc p rank d e Pp (withProcessesAux p fuel ns d)) :
    ∀ (procs : List ProcessConfig) (done emitted P : List String),
      (∀ x, x ∈ done ↔ x ∈ emitted ∨ x ∈ P) →
      (∀ q ∈ procs, confOf p q.name = some q ∧ goodB p q.name = true) →
      (∀ x ∈ P, ∀ q ∈ procs, rank q.name < rank x) →
      (withProcessesLoop (withProcessesAux p fuel) procs done).err = none →
      MainConc p rank done emitted P
        (withProcessesLoop (withProcessesAux p fuel) procs done) := by
  intro procs
  induction procs with
  | nil =>
    intro done emitted P Hdone _ _ _
    simp only [withProcessesLoop]
    exact ⟨fun x => by simp, by simp, by simp, by simp, trivial, by simp⟩
  | cons proc rest ih =>
    intro done emitted P Hdone Hprocs HP herr
    have hkp := Hprocs proc (List.mem_cons_self _ _)
    have hkeysp : proc.name ∈ p.keys := confOf_keys hkp.1
    have Hprocs_rest : ∀ q ∈ rest, confOf p q.name = some q ∧ goodB p q.name = true :=
      fun q hq => Hprocs q (List.mem_cons_of_mem _ hq)
    have HP_rest : ∀ x ∈ P, ∀ q ∈ rest, rank q.name < rank x :=
      fun x hx q hq => HP x hx q (List.mem_cons_of_mem _ hq)
    by_cases hd : proc.name ∈ done
    · rw [withProcessesLoop_cons_skip hd] at herr ⊢
      exact ih done emitted P Hdone Hprocs_rest HP_rest herr
    · by_cases hdeps : proc.GetDependencies.isEmpty = true
      · -- no dependencies: mark and visit immediately
        have hdnil : proc.GetDependencies = [] := by
          cases hh : proc.GetDependencies with
          | nil => rfl
          | cons a as => rw [hh] at hdeps; cases hdeps
        have hsubeq : loopSub (withProcessesAux p fuel) proc done =
            ⟨[], proc.name :: done, none⟩ := by
          simp only [loopSub]
          rw [if_pos hdeps]
        rw [withProcessesLoop_cons_new hd, hsubeq] at herr ⊢
        have MCt := ih (proc.name :: done) (emitted ++ [proc.name]) P
          (hdone_mark Hdone) Hprocs_rest HP_rest herr
        obtain ⟨t1, t2, t3, t4, t5, t6⟩ := MCt
        refine ⟨?_, ?_, ?_, ?_, ?_, ?_⟩
        · intro x
          rw [t1 x]
          simp only [List.nil_append, List.map_cons, List.mem_cons]
          tauto
        · simp only [List.nil_append, List.map_cons, List.nodup_cons]
          refine ⟨?_, t2⟩
          intro hcon
          exact t3 proc.name hcon (List.mem_cons_self _ _)
        · intro x hx
          simp only [List.nil_append, List.map_cons, List.mem_cons] at hx
          rcases hx with heq | hx'
          · rw [heq]; exact hd
          · intro hcon
            exact t3 x hx' (List.mem_cons_of_mem _ hcon)
        · intro q hq
          rcases List.mem_cons.mp hq with heq | hq'
          · rw [heq]; exact hkp
          · exact t4 q hq'
        · refine ⟨?_, t5⟩
          intro b hb
          rw [hdnil] at hb
          cases hb
        · intro x hx m hm
          simp only [List.nil_append, List.map_cons, List.mem_cons] at hm
          rcases hm with heq | hm'
          · rw [heq]
            exact HP x hx proc (List.mem_cons_self _ _)
          · exact t6 x hx m hm'
      · -- dependencies present: walk them first
        have hne : proc.GetDependencies ≠ [] := by
          intro hcon
          rw [hcon] at hdeps
          exact hdeps rfl
        have hsubeq : loopSub (withProcessesAux p fuel) proc done =
            withProcessesAux p fuel proc.GetDependencies (proc.name :: done) := by
          simp only [loopSub]
          rw [if_neg hdeps]
        rw [withProcessesLoop_cons_new hd, hsubeq] at herr ⊢
        cases hse : (withProcessesAux p fuel proc.GetDependencies (proc.name :: done)).err with
        | some e =>
          rw [hse] at herr
          exact Option.noConfusion (show (some e : Option WalkErr) = none from herr)
        | none =>
          rw [hse] at herr
          have htailerr : (withProcessesLoop (withProcessesAux p fuel) rest
              (withProcessesAux p fuel proc.GetDependencies (proc.name :: done)).done).err =
              none := herr
          have hdepsrank : ∀ b ∈ proc.GetDependencies, rank b < rank proc.name := by
            intro b hb
            exact hrank proc.name hkeysp b (by rw [depNamesOf_conf hkp.1]; exact hb)
          have HPsub : ∀ x ∈ proc.name :: P, ∀ n ∈ proc.GetDependencies,
              goodB p n = true → rank n < rank x := by
            intro x hx n hn _
            rcases List.mem_cons.mp hx with heq | hx'
            · rw [heq]
              exact hdepsrank n hn
            · exact lt_trans (hdepsrank n hn) (HP x hx' proc (List.mem_cons_self _ _))
          have MCs := hrec proc.GetDependencies (proc.name :: done) emitted (proc.name :: P)
            (hdone_push Hdone) HPsub hne hse
          obtain ⟨s1, s2, s3, s4, s5, s6⟩ := MCs
          have Hdone_tail : ∀ x,
              x ∈ (withProcessesAux p fuel proc.GetDependencies (proc.name :: done)).done ↔
              x ∈ (emitted ++ (withProcessesAux p fuel proc.GetDependencies
                  (proc.name :: done)).visited.map ProcessConfig.name ++ [proc.name]) ∨
              x ∈ P := by
            intro x
            rw [s1 x, List.mem_cons, Hdone x]
            simp only [List.mem_append, List.mem_singleton]
            tauto
          have MCt := ih (withProcessesAux p fuel proc.GetDependencies (proc.name :: done)).done
            (emitted ++ (withProcessesAux p fuel proc.GetDependencies
              (proc.name :: done)).visited.map ProcessConfig.name ++ [proc.name]) P
            Hdone_tail Hprocs_rest HP_rest htailerr
          obtain ⟨t1, t2, t3, t4, t5, t6⟩ := MCt
          -- membership of the sub walk's done set in the final done set
          have hsub_in_final : ∀ y,
              y ∈ (withProcessesAux p fuel proc.GetDependencies (proc.name :: done)).done →
              y ∈ (withProcessesLoop (withProcessesAux p fuel) rest
                (withProcessesAux p fuel proc.GetDependencies (proc.name :: done)).done).done := by
            intro y hy
            exact (t1 y).mpr (Or.inr hy)
          -- the head process's good dependencies come from the emitted set or the sub visits
          have hheaddeps : ∀ d ∈ proc.GetDependencies, goodB p d = true →
              d ∈ emitted ++ (withProcessesAux p fuel proc.GetDependencies
                (proc.name :: done)).visited.map ProcessConfig.name := by
            intro d hdm hg
            have hcover := (withProcessesAux_goodwalk p hnd fuel proc.GetDependencies
              (proc.name :: done) hse).2.1
            rw [startNames_ne hne] at hcover
            have hdone1 := hcover d hdm hg
            rcases (s1 d).mp hdone1 with hvis | hd1
            · exact List.mem_append.mpr (Or.inr hvis)
            · rcases List.mem_cons.mp hd1 with heq | hdone0
              · exact absurd (heq ▸ hdepsrank d hdm) (lt_irrefl _)
              · rcases (Hdone d).mp hdone0 with hem | hP
                · exact List.mem_append.mpr (Or.inl hem)
                · exact absurd (hdepsrank d hdm)
                    (not_lt_of_gt (HP d hP proc (List.mem_cons_self _ _)))
        -- assemble the six conclusions
          refine ⟨?_, ?_, ?_, ?_, ?_, ?_⟩
          · intro x
            rw [t1 x, s1 x, List.mem_cons, Hdone x]
            simp only [List.map_append, List.map_cons, List.mem_append, List.mem_cons]
            tauto
          · simp only [List.map_append, List.map_cons]
            refine List.Nodup.append s2 ?_ ?_
            · refine List.nodup_cons.mpr ⟨?_, t2⟩
              intro hcon
              exact t3 proc.name hcon ((s1 proc.name).mpr (Or.inr (List.mem_cons_self _ _)))
            · intro x hxs hxt
              have hxsub : x ∈ (withProcessesAux p fuel proc.GetDependencies
                  (proc.name :: done)).done := (s1 x).mpr (Or.inl hxs)
              rcases List.mem_cons.mp hxt with heq | hxt'
              · rw [heq] at hxs
                exact s3 proc.name hxs (List.mem_cons_self _ _)
              · exact t3 x hxt' hxsub
          · intro x hx
            simp only [List.map_append, List.map_cons, List.mem_append, List.mem_cons] at hx
            rcases hx with hxs | hxq
            · intro hcon
              exact s3 x hxs (List.mem_cons_of_mem _ hcon)
            · rcases hxq with heq | hxt
              · rw [heq]; exact hd
              · intro hcon
                exact t3 x hxt ((s1 x).mpr (Or.inr (List.mem_cons_of_mem _ hcon)))
          · intro q hq
            rcases List.mem_append.mp hq with hqs | hqr
            · exact s4 q hqs
            · rcases List.mem_cons.mp hqr with heq | hqt
              · rw [heq]; exact hkp
              · exact t4 q hqt
          · refine goodOrder_append s5 ?_
            refine ⟨hheaddeps, ?_⟩
            refine goodOrder_mono ?_ t5
            intro x hx
            simp only [List.mem_append, List.mem_singleton] at hx ⊢
            tauto
          · intro x hx m hm
            simp only [List.map_append, List.map_cons, List.mem_append, List.mem_cons] at hm
            rcases hm with hms | hmq
            · exact s6 x (List.mem_cons_of_mem _ hx) m hms
            · rcases hmq with heq | hmt
              · rw [heq]
                exact HP x hx proc (List.mem_cons_self _ _)
              · exact t6 x hx m hmt

/-- Main walk lemma: with unique keys and a rank function witnessing
acyclicity of the dependency relation, a successful walk satisfies the
invariant conclusions. -/
theorem withProcessesAux_main (p : Project) (rank : String → Nat) (hnd : p.keys.Nodup)
    (hrank : ∀ a ∈ p.keys, ∀ b ∈ depNamesOf p a, rank b < rank a) :
    ∀ (fuel : Nat) (names done emitted P : List String),
      (∀ x, x ∈ done ↔ x ∈ emitted ∨ x ∈ P) →
      (∀ x ∈ P, ∀ n ∈ names, goodB p n = true → rank n < rank x) →
      (names = [] → P = []) →
      (withProcessesAux p fuel names done).err = none →
      MainConc p rank done emitted P (withProcessesAux p fuel names done) := by
  intro fuel
  induction fuel with
  | zero =>
    intro names done emitted P _ _ _ herr
    exact Option.noConfusion (show (some WalkErr.outOfFuel : Option WalkErr) = none from herr)
  | succ fuel ih =>
    intro names done emitted P Hdone HP Hne herr
    simp only [withProcessesAux] at herr ⊢
    cases hg : getProcesses p names with
    | mk procs err =>
      rw [hg] at herr
      cases err with
      | some e =>
        exact Option.noConfusion (show (some e : Option WalkErr) = none from herr)
      | none =>
        have herr' : (withProcessesLoop (withProcessesAux p fuel) procs done).err = none := herr
        have Hprocs : ∀ q ∈ procs, confOf p q.name = some q ∧ goodB p q.name = true := by
          intro q hq
          exact getProcesses_mem_conf hnd
            (show q ∈ (getProcesses p names).fst by rw [hg]; exact hq)
        have HPprocs : ∀ x ∈ P, ∀ q ∈ procs, rank q.name < rank x := by
          intro x hx q hq
          cases hns : names with
          | nil =>
            rw [Hne hns] at hx
            cases hx
          | cons a as =>
            have hstart := getProcesses_mem_start
              (show q ∈ (getProcesses p names).fst by rw [hg]; exact hq)
            rw [hns, startNames_ne (List.cons_ne_nil a as)] at hstart
            exact HP x hx q.name (by rw [hns]; exact hstart) (Hprocs q hq).2
        exact withProcessesLoop_main hnd hrank
          (fun ns d e Pp h1 h2 hne3 h4 => ih ns d e Pp h1 h2 (fun hcon => absurd hcon hne3) h4)
          procs done emitted P Hdone Hprocs HPprocs herr'

/-! ### Claim C2 -/

/-- Claim C2: over an acyclic (rank-ordered), closed dependency graph with
unique keys and declared starting names, the walk succeeds; it invokes the
visitor exactly once per reachable non-disabled process (the visited names are
unrepeated and are exactly the reachable names); no disabled process appears
in the output; and every process is visited only after all of its declared
non-disabled dependencies. -/
theorem walker_correct (p : Project) (names : List String) (fuel : Nat)
    (rank : String → Nat)
    (hnd : p.keys.Nodup)
    (hnames : ∀ n ∈ names, n ∈ p.keys)
    (hclosed : ∀ a ∈ p.keys, ∀ b ∈ depNamesOf p a, b ∈ p.keys)
    (hrank : ∀ a ∈ p.keys, ∀ b ∈ depNamesOf p a, rank b < rank a)
    (hfuel : p.keys.length < fuel) :
    (WithProcesses p names fuel).err = none ∧
    ((WithProcesses p names fuel).visited.map ProcessConfig.name).Nodup ∧
    (∀ x, x ∈ (WithProcesses p names fuel).visited.map ProcessConfig.name ↔
      ReachableFrom p names x) ∧
    (∀ q ∈ (WithProcesses p names fuel).visited, q.disabled = false) ∧
    (∀ k q, (WithProcesses p names fuel).visited[k]? = some q →
      ∀ d ∈ q.GetDependencies, goodB p d = true →
        d ∈ ((WithProcesses p names fuel).visited.take k).map ProcessConfig.name) := by
  have herr : (WithProcesses p names fuel).err = none :=
    withProcessesAux_noerr p hnd hclosed fuel names []
      (lt_of_le_of_lt (undone_le_keys p []) hfuel) hnames
  have MC := withProcessesAux_main p rank hnd hrank fuel names [] [] []
    (by intro x; simp) (by intro x hx; cases hx) (fun _ => rfl) herr
  obtain ⟨c1, c2, c3, c4, c5, c6⟩ := MC
  refine ⟨herr, c2, ?_, ?_, ?_⟩
  · intro x
    constructor
    · intro hx
      have hxdone : x ∈ (WithProcesses p names fuel).done := (c1 x).mpr (Or.inl hx)
      have hsound := withProcessesAux_sound p hnd (ReachableFrom p names)
        (fun a ha d hd hg => ReachableFrom.step a d ha hd hg)
        fuel names [] (fun n hn hg => ReachableFrom.base n hn hg) x hxdone
      rcases hsound with hin | hr
      · cases hin
      · exact hr
    · intro hr
      induction hr with
      | base n hn hg =>
        have hdone := (withProcessesAux_goodwalk p hnd fuel names [] herr).2.1 n hn hg
        rcases (c1 n).mp hdone with h1 | h2
        · exact h1
        · cases h2
      | step a b ha hab hg iha =>
        obtain ⟨q, hqv, hqn⟩ := List.mem_map.mp iha
        have hconf := (c4 q hqv).1
        have hb : b ∈ q.GetDependencies := by
          rw [← depNamesOf_conf hconf, hqn]
          exact hab
        rcases goodOrder_mem_deps c5 q hqv b hb hg with hin | hv
        · cases hin
        · exact hv
  · intro q hq
    obtain ⟨hcf, hgd⟩ := c4 q hq
    unfold confOf at hcf
    cases hl : p.lookup q.name with
    | none => rw [hl] at hcf; cases hcf
    | some c =>
      rw [hl] at hcf
      injection hcf with hcf'
      unfold goodB at hgd
      rw [hl] at hgd
      have hcd : c.disabled = false := by simpa using hgd
      rw [← hcf']
      exact hcd
  · intro k q hk d hd hg
    rcases goodOrder_take c5 k q hk d hd hg with hin | hv
    · cases hin
    · exact hv

/-- A topological rank for the diamond project. -/
def rankW : String → Nat :=
  fun n => if n = "a" then 0 else if n = "b" then 1 else 2

/-- Witness for C2 at the diamond project with the empty starting list. -/
theorem walker_correct_witness :
    (WithProcesses Pw [] 5).err = none ∧
    "c" ∈ (WithProcesses Pw [] 5).visited.map ProcessConfig.name := by
  have h := walker_correct Pw [] 5 rankW (by decide) (by intro n hn; cases hn)
    (by decide) (by decide) (by decide)
  exact ⟨h.1, (h.2.2.1 "c").mpr (ReachableFrom.base "c" (by decide) (by decide))⟩

end ProcessCompose
